import Mathlib

/-!
Verification of the temporal booking engine of the `book-meetings` service.

The TypeScript source is shallowly embedded here:

* instants are modelled as `Int` milliseconds since the UTC epoch (the
  JavaScript `Date` value), half-open intervals `[start, stop)`;
* `dayjs.utc(x).diff(y, 'minute')` is integer division of the millisecond
  difference by 60000 (for the nonnegative differences occurring at every
  call site this is exactly dayjs's rounding);
* the `rrule` library is external to the repository; a parsed rule is
  abstracted by the finite list of start instants it produces given an
  effective DTSTART (`RRuleData.occsGiven`), and `rrule.between(a, b, true)`
  is, per the library's documented semantics, the sublist of instants `o`
  with `a ≤ o ≤ b`;
* the Postgres store is a list of booking rows; the range-overlap operator
  `&&` on `tstzrange(s, e, '[)')` values is non-emptiness of the
  intersection, `max s1 s2 < min e1 e2`;
* asynchronous store access is sequentialised: each service function takes
  the store as an explicit argument.
-/

/-- One UTC day in milliseconds. -/
def dayMs : Int := 86400000

/-- The `YYYY-MM-DD (UTC)` key used by the exception map:
`dayjs.utc(t).format('YYYY-MM-DD')`, i.e. the (floored) day number. -/
def dateKey (t : Int) : Int := t / dayMs

/-- `dayjs.utc(a).diff(dayjs.utc(b), 'minute')`; at every call site in the
source the difference `a - b` is nonnegative, where dayjs's rounding is the
floor computed here. -/
def diffMinutes (a b : Int) : Int := (a - b) / 60000

/-- `src/core/overlap.ts`, `intervalsOverlap`: half-open interval overlap. -/
def intervalsOverlap (start1 end1 start2 end2 : Int) : Bool :=
  decide (start1 < end2) && decide (start2 < end1)

/-- `TimeSlot` of `src/types.ts` (`end` is spelled `stop` since `end` is a
Lean keyword). -/
structure TimeSlot where
  start : Int
  stop : Int
deriving Repr, DecidableEq

/-- `BookingException` of `src/types.ts`. -/
structure BookingException where
  exceptDate : Int
  replaceStart : Option Int
  replaceEnd : Option Int
deriving Repr, DecidableEq

/-- A parsed RFC 5545 rule, abstracting the external `rrule` library:
`dtstartInText` is the DTSTART carried by the rule text (if any), and
`occsGiven d` is the full finite list of start instants the library
produces for the rule when its effective DTSTART is `d`. -/
structure RRuleData where
  dtstartInText : Option Int
  occsGiven : Int → List Int

/-- A `bookings` row together with its (optional) `recurrence_rules` row and
its `exceptions` rows; `metadata` is opaque to the core and omitted. -/
structure Booking where
  id : Nat
  resourceId : Nat
  startTime : Int
  endTime : Int
  recurrenceRule : Option RRuleData
  exceptions : List BookingException

/-- The persistent store: the set of booking rows, in insertion order. -/
abbrev Store := List Booking

/-- `BookingInstance` of `src/types.ts` (`end` spelled `stop`). -/
structure BookingInstance where
  bookingId : Nat
  start : Int
  stop : Int
  isRecurring : Bool
deriving Repr, DecidableEq

/-- Exception well-formedness (data-model invariant 2): if both replacement
fields are present, the replacement interval is nonempty. -/
def excWF (ex : BookingException) : Bool :=
  match ex.replaceStart, ex.replaceEnd with
  | some rs, some re => decide (rs < re)
  | _, _ => true

/-- Store well-formedness: the `end > start` CHECK on bookings and the
replacement-interval CHECK on exceptions. -/
def storeWF (store : Store) : Bool :=
  store.all (fun b => decide (b.startTime < b.endTime) && b.exceptions.all excWF)

/-- The occurrence instants of a rule, with DTSTART bound to `baseStart`
when the rule text carries none (`src/core/rrule.ts` lines 38-43). -/
def ruleInstants (rule : RRuleData) (baseStart : Int) : List Int :=
  rule.occsGiven (rule.dtstartInText.getD baseStart)

/-- One `Map.set` step of the JavaScript exception map: replace the value at
an existing key in place, else append. -/
def mapSet (m : List (Int × BookingException)) (k : Int) (v : BookingException) :
    List (Int × BookingException) :=
  match m with
  | [] => [(k, v)]
  | (k', v') :: rest => if k' = k then (k, v) :: rest else (k', v') :: mapSet rest k v

/-- `Map.get` on the exception map. -/
def mapGet (m : List (Int × BookingException)) (k : Int) : Option BookingException :=
  (m.find? (fun p => decide (p.1 = k))).map (fun p => p.2)

/-- The exception map built by `src/core/rrule.ts` lines 49-53: keyed by the
UTC date of `exceptDate`, later list entries overwriting earlier ones. -/
def buildExceptionMap (exceptions : List BookingException) : List (Int × BookingException) :=
  exceptions.foldl (fun m exc => mapSet m (dateKey exc.exceptDate) exc) []

/-- `src/core/rrule.ts`, `expandOccurrences`: expand a rule over
`[windowStart, windowEnd]` (inclusive, `rrule.between` with `inc = true`),
applying per-date exceptions (replace when both replacement fields are
present, else skip). -/
def expandOccurrences (rule : RRuleData) (windowStart windowEnd baseStart baseEnd : Int)
    (exceptions : List BookingException) : List TimeSlot :=
  let duration := baseEnd - baseStart
  let occurrences := (ruleInstants rule baseStart).filter
    (fun o => decide (windowStart ≤ o) && decide (o ≤ windowEnd))
  let exceptionMap := buildExceptionMap exceptions
  occurrences.foldl
    (fun instances o =>
      match mapGet exceptionMap (dateKey o) with
      | some exc =>
        match exc.replaceStart, exc.replaceEnd with
        | some rs, some re => instances ++ [⟨rs, re⟩]
        | _, _ => instances
      | none => instances ++ [⟨o, o + duration⟩])
    []

/-- Key order used by the final `sort` in `findOverlaps`. -/
def instLE (a b : BookingInstance) : Prop := a.start ≤ b.start

instance : DecidableRel instLE := fun a b => Int.decLe a.start b.start

instance : IsTotal BookingInstance instLE := ⟨fun a b => Int.le_total a.start b.start⟩

instance : IsTrans BookingInstance instLE := ⟨fun _ _ _ => Int.le_trans⟩

/-- Non-emptiness of the intersection of `tstzrange(s1, e1, '[)')` and
`tstzrange(s2, e2, '[)')`: the Postgres `&&` operator. -/
def rangesIntersect (s1 e1 s2 e2 : Int) : Bool :=
  decide (max s1 s2 < min e1 e2)

/-- `src/core/overlap.ts`, `findOverlaps`: single bookings whose stored
range intersects the window, plus each recurring booking (template start
before `windowEnd`) expanded over the duration-widened window and filtered
to occurrences overlapping the original window; sorted by start. -/
def findOverlaps (store : Store) (resourceId : Nat) (windowStart windowEnd : Int) :
    List BookingInstance :=
  let singles := store.filter (fun b =>
    decide (b.resourceId = resourceId) && b.recurrenceRule.isNone &&
    rangesIntersect b.startTime b.endTime windowStart windowEnd)
  let singleInstances := singles.map (fun b =>
    { bookingId := b.id, start := b.startTime, stop := b.endTime, isRecurring := false })
  let recurrings := store.filter (fun b =>
    decide (b.resourceId = resourceId) && b.recurrenceRule.isSome &&
    decide (b.startTime < windowEnd))
  let recurringInstances := recurrings.flatMap (fun b =>
    match b.recurrenceRule with
    | none => []
    | some rule =>
      let duration := b.endTime - b.startTime
      let expandedWindowStart := windowStart - duration
      let occurrences :=
        expandOccurrences rule expandedWindowStart windowEnd b.startTime b.endTime b.exceptions
      (occurrences.filter (fun o =>
        decide (o.start < windowEnd) && decide (o.stop > windowStart))).map (fun o =>
        { bookingId := b.id, start := o.start, stop := o.stop, isRecurring := true }))
  List.insertionSort instLE (singleInstances ++ recurringInstances)

/-- `ConflictInfo` of `src/types.ts`. -/
structure ConflictInfo where
  hasConflict : Bool
  conflicts : List BookingInstance
deriving Repr, DecidableEq

/-- `src/core/overlap.ts`, `hasConflict`. -/
def hasConflict (store : Store) (resourceId : Nat) (candidateStart candidateEnd : Int) :
    ConflictInfo :=
  let instances := findOverlaps store resourceId candidateStart candidateEnd
  let conflicts := instances.filter (fun inst =>
    decide (candidateStart < inst.stop) && decide (inst.start < candidateEnd))
  ⟨decide (conflicts.length > 0), conflicts⟩

/-- Key order used by the `sortBy` in `mergeIntervals`. -/
def slotLE (a b : TimeSlot) : Prop := a.start ≤ b.start

instance : DecidableRel slotLE := fun a b => Int.decLe a.start b.start

instance : IsTotal TimeSlot slotLE := ⟨fun a b => Int.le_total a.start b.start⟩

instance : IsTrans TimeSlot slotLE := ⟨fun _ _ _ => Int.le_trans⟩

/-- The coalescing pass of `mergeIntervals` on a start-sorted list, carrying
the last accumulated slot: merge the next slot into it when
`current.start ≤ last.end`, extending the end to the maximum. -/
def mergeGo (last : TimeSlot) : List TimeSlot → List TimeSlot
  | [] => [last]
  | current :: rest =>
    if current.start ≤ last.stop then mergeGo ⟨last.start, max last.stop current.stop⟩ rest
    else last :: mergeGo current rest

/-- `mergeGo` started on the head of a start-sorted list. -/
def mergeSorted : List TimeSlot → List TimeSlot
  | [] => []
  | a :: rest => mergeGo a rest

/-- `src/core/gaps.ts`, `mergeIntervals`: sort by start, then coalesce
overlapping or touching intervals. -/
def mergeIntervals (intervals : List TimeSlot) : List TimeSlot :=
  mergeSorted (List.insertionSort slotLE intervals)

/-- `src/core/gaps.ts`, `findGaps`: the free periods of the window around
the merged busy slots, filtered by the minimum duration in minutes — except
that an empty merged list returns the whole window unconditionally. -/
def findGaps (busySlots : List TimeSlot) (windowStart windowEnd : Int)
    (minGapMinutes : Int) : List TimeSlot :=
  let merged := mergeIntervals busySlots
  match merged with
  | [] => [⟨windowStart, windowEnd⟩]
  | m0 :: tl =>
    let front : List TimeSlot :=
      if windowStart < m0.start then
        if minGapMinutes ≤ diffMinutes m0.start windowStart then [⟨windowStart, m0.start⟩]
        else []
      else []
    let mids : List TimeSlot :=
      ((m0 :: tl).zip tl).filterMap (fun p =>
        if minGapMinutes ≤ diffMinutes p.2.start p.1.stop then some ⟨p.1.stop, p.2.start⟩
        else none)
    let lastSlot := (m0 :: tl).getLastD m0
    let back : List TimeSlot :=
      if lastSlot.stop < windowEnd then
        if minGapMinutes ≤ diffMinutes windowEnd lastSlot.stop then [⟨lastSlot.stop, windowEnd⟩]
        else []
      else []
    front ++ mids ++ back

/-- The loop state of `computeNextAvailable`'s forward scan. -/
structure AvailState where
  cursor : Int
  suggestions : List TimeSlot
deriving Repr, DecidableEq

/-- The `while` guard of the forward scan (negated). -/
def navDone (searchEnd : Int) (maxSuggestions : Nat) (st : AvailState) : Bool :=
  !(decide (st.cursor < searchEnd) && decide (st.suggestions.length < maxSuggestions))

/-- One iteration of the forward scan: jump past the first merged busy slot
the candidate overlaps, else record the candidate and advance by the step. -/
def navIter (merged : List TimeSlot) (durationMinutes stepMinutes : Int)
    (st : AvailState) : AvailState :=
  let candidateStart := st.cursor
  let candidateEnd := st.cursor + durationMinutes * 60000
  match merged.find? (fun m => intervalsOverlap candidateStart candidateEnd m.start m.stop) with
  | some m => ⟨m.stop, st.suggestions⟩
  | none => ⟨st.cursor + stepMinutes * 60000, st.suggestions ++ [⟨candidateStart, candidateEnd⟩]⟩

/-- The forward scan as a fuel-indexed loop; the source's `while` loop is
unbounded, and `navScan_cursor_increases_and_terminates` shows that for any
`stepMinutes ≥ 1` the fuel used by `computeNextAvailable` suffices. -/
def navScan (merged : List TimeSlot) (searchEnd : Int) (durationMinutes stepMinutes : Int)
    (maxSuggestions : Nat) : Nat → AvailState → AvailState
  | 0, st => st
  | fuel + 1, st =>
    if navDone searchEnd maxSuggestions st then st
    else navScan merged searchEnd durationMinutes stepMinutes maxSuggestions fuel
      (navIter merged durationMinutes stepMinutes st)

/-- `AvailabilityResult` of `src/types.ts`. -/
structure AvailabilityResult where
  suggestions : List TimeSlot
  searchedUntil : Int
deriving Repr, DecidableEq

/-- `src/core/gaps.ts` (`src/unnamed/part_000`), `computeNextAvailable`:
fetch and merge the busy set over the search horizon, then scan forward
from the desired start. -/
def computeNextAvailable (store : Store) (resourceId : Nat) (desiredStart : Int)
    (durationMinutes : Int) (searchHorizonHours stepMinutes : Int)
    (maxSuggestions : Nat) : AvailabilityResult :=
  let searchEnd := desiredStart + searchHorizonHours * 3600000
  let busyInstances := findOverlaps store resourceId desiredStart searchEnd
  let busySlots := busyInstances.map (fun inst =>
    TimeSlot.mk inst.start inst.stop)
  let mergedBusySlots := mergeIntervals busySlots
  let final := navScan mergedBusySlots searchEnd durationMinutes stepMinutes maxSuggestions
    ((searchEnd - desiredStart).toNat + 1) ⟨desiredStart, []⟩
  ⟨final.suggestions, final.cursor⟩

/-- Status of a `BookingResult` in `src/services/booking.service.ts`. -/
inductive BStatus where
  | success
  | conflict
deriving Repr, DecidableEq

/-- `BookingResult` of `src/services/booking.service.ts` (string
serialisation of instants omitted; the carried values are kept). -/
structure BookingResult where
  status : BStatus
  booking : Option Booking
  conflicts : List BookingInstance
  next_available : List TimeSlot

/-- `src/services/booking.service.ts`, `createSingleBooking`: check for
conflicts; on conflict return them with up to 5 next-available suggestions
and leave the store unchanged, otherwise persist the booking. `newId` stands
for the server-assigned identifier. -/
def createSingleBooking (store : Store) (resourceId : Nat) (startTime endTime : Int)
    (newId : Nat) : BookingResult × Store :=
  let conflictCheck := hasConflict store resourceId startTime endTime
  if conflictCheck.hasConflict then
    let durationMinutes := diffMinutes endTime startTime
    let availability := computeNextAvailable store resourceId startTime durationMinutes 720 15 5
    (⟨BStatus.conflict, none, conflictCheck.conflicts, availability.suggestions⟩, store)
  else
    let booking : Booking := ⟨newId, resourceId, startTime, endTime, none, []⟩
    (⟨BStatus.success, some booking, [], []⟩, store ++ [booking])

/-- The field names defined by `configSchema` in `src/config.ts`. -/
def configSchemaKeys : List String := ["port", "nodeEnv", "databaseUrl", "logLevel"]

/-- The environment variables read by `parseConfig` in `src/config.ts`. -/
def envVarsRead : List String := ["PORT", "NODE_ENV", "DATABASE_URL", "LOG_LEVEL"]

/-! ### Proof-layer definitions -/

/-- Left-biased choice on options (the observable behaviour of overwriting
map entries). -/
def orD (a b : Option BookingException) : Option BookingException :=
  match a with
  | some v => some v
  | none => b

/-- The value the JavaScript exception map associates to date key `k`:
the last exception in list order whose `exceptDate` falls on that UTC date. -/
def lookupExc (exceptions : List BookingException) (k : Int) : Option BookingException :=
  exceptions.foldl (fun acc e => if dateKey e.exceptDate = k then some e else acc) none

/-- The per-occurrence emission of `expandOccurrences`, with the map lookup
replaced by its observable value `lookupExc`. -/
def emitFor (exceptions : List BookingException) (duration : Int) (o : Int) :
    Option TimeSlot :=
  match lookupExc exceptions (dateKey o) with
  | some exc =>
    match exc.replaceStart, exc.replaceEnd with
    | some rs, some re => some ⟨rs, re⟩
    | _, _ => none
  | none => some ⟨o, o + duration⟩

/-- The spec's per-occurrence rule, worded from §4.2 step 5: a date with a
replacement exception emits the replacement interval, a date with an
exception without replacement emits nothing, any other occurrence emits
`[o, o + D)`. -/
def specApplyException (exceptions : List BookingException) (duration : Int) (o : Int) :
    Option TimeSlot :=
  match lookupExc exceptions (dateKey o) with
  | some exc =>
    if exc.replaceStart.isSome && exc.replaceEnd.isSome then
      some ⟨exc.replaceStart.getD 0, exc.replaceEnd.getD 0⟩
    else none
  | none => some ⟨o, o + duration⟩

/-- Strip the replacement fields of an exception unless both are present:
the resulting exception is a plain skip. -/
def normalizeException (e : BookingException) : BookingException :=
  match e.replaceStart, e.replaceEnd with
  | some _, some _ => e
  | _, _ => ⟨e.exceptDate, none, none⟩

/-- `m` covers the instant `x`. -/
def covers (m : TimeSlot) (x : Int) : Prop := m.start ≤ x ∧ x < m.stop

/-- Strict separation of two slots (they neither overlap nor touch). -/
def sepSlots (a b : TimeSlot) : Prop := a.stop < b.start

/-- Adjacent gaps: the first ends no later than the second starts. -/
def gapLE (a b : TimeSlot) : Prop := a.stop ≤ b.start

/-- The unfiltered gap candidates of a window around a separated busy list:
`[cursor, m.start)` before each busy slot and `[last.stop, windowEnd)` after
the last one. -/
def candRec (windowEnd : Int) (cursor : Int) : List TimeSlot → List TimeSlot
  | [] => [⟨cursor, windowEnd⟩]
  | m :: rest => ⟨cursor, m.start⟩ :: candRec windowEnd m.stop rest

/-- The filter `findGaps` applies to a gap candidate: strictly positive
length (the guards on the first and last gap) and minimum duration. -/
def keepGap (minGapMinutes : Int) (g : TimeSlot) : Bool :=
  decide (g.start < g.stop) && decide (minGapMinutes ≤ diffMinutes g.stop g.start)

/-- The single-booking busy instances of the spec's busy-set description
(§4.3): bookings without a rule whose half-open interval overlaps the
window. -/
def specSingleInstances (store : Store) (resourceId : Nat) (windowStart windowEnd : Int) :
    List BookingInstance :=
  (store.filter (fun b =>
    decide (b.resourceId = resourceId) && b.recurrenceRule.isNone &&
    decide (b.startTime < windowEnd) && decide (windowStart < b.endTime))).map (fun b =>
    { bookingId := b.id, start := b.startTime, stop := b.endTime, isRecurring := false })

/-- The recurring busy instances of the spec's busy-set description (§4.3
steps 2-3): each recurring booking with template start before `windowEnd`,
expanded by C2 over the duration-widened window and filtered to occurrences
strictly overlapping the original window. -/
def specRecurringInstances (store : Store) (resourceId : Nat) (windowStart windowEnd : Int) :
    List BookingInstance :=
  store.flatMap (fun b =>
    if b.resourceId = resourceId ∧ b.recurrenceRule.isSome ∧ b.startTime < windowEnd then
      match b.recurrenceRule with
      | none => []
      | some rule =>
        ((expandOccurrences rule (windowStart - (b.endTime - b.startTime)) windowEnd
            b.startTime b.endTime b.exceptions).filter (fun o =>
          decide (o.start < windowEnd) && decide (o.stop > windowStart))).map (fun o =>
          { bookingId := b.id, start := o.start, stop := o.stop, isRecurring := true })
    else [])

/-- The busy set under the claim's reading of the correctness property of
§4.3: the union of single-booking intervals overlapping the window and ALL
exception-applied occurrences of each recurring rule that overlap the
window (no restriction to a widened expansion window), sorted by start. -/
def specBusySetFull (store : Store) (resourceId : Nat) (windowStart windowEnd : Int) :
    List BookingInstance :=
  let fromBooking := fun (b : Booking) =>
    match b.recurrenceRule with
    | none =>
      if b.resourceId = resourceId ∧ b.startTime < windowEnd ∧ windowStart < b.endTime then
        [BookingInstance.mk b.id b.startTime b.endTime false]
      else []
    | some rule =>
      if b.resourceId = resourceId then
        (((ruleInstants rule b.startTime).filterMap
            (specApplyException b.exceptions (b.endTime - b.startTime))).filter (fun o =>
          decide (o.start < windowEnd) && decide (windowStart < o.stop))).map (fun o =>
          BookingInstance.mk b.id o.start o.stop true)
      else []
  List.insertionSort instLE (store.flatMap fromBooking)

/-- A store holding one single booking `[0 ms, 120000 ms)` on resource 1. -/
def storeA : Store := [⟨1, 1, 0, 120000, none, []⟩]

/-- A store holding two adjacent single bookings `[0, 5)` and `[5, 10)`
(milliseconds) on resource 1. -/
def storeB : Store := [⟨1, 1, 0, 5, none, []⟩, ⟨2, 1, 5, 10, none, []⟩]

/-- An abstract rule carrying no DTSTART and producing exactly one
occurrence, at its effective DTSTART. -/
def ruleOne : RRuleData := ⟨none, fun d => [d]⟩

/-- A store holding one recurring booking on resource 1: template
`[0, 3600000)` (one hour on day 0), rule `ruleOne`, and a replacement
exception moving the day-0 occurrence to 14:00-15:00 on day 30. -/
def storeC : Store := [⟨1, 1, 0, 3600000, some ruleOne, [⟨0, some 2642400000, some 2646000000⟩]⟩]

/-! ### Lemmas: the exception map -/

theorem orD_none (a : Option BookingException) : orD a none = a := by
  cases a <;> rfl

theorem lookupFold_eq_orD (k : Int) (l : List BookingException)
    (acc : Option BookingException) :
    l.foldl (fun acc e => if dateKey e.exceptDate = k then some e else acc) acc
      = orD (lookupExc l k) acc := by
  induction l generalizing acc with
  | nil => rfl
  | cons e l ih =>
    simp only [List.foldl_cons, lookupExc] at *
    rw [ih, ih (if dateKey e.exceptDate = k then some e else none)]
    by_cases h : dateKey e.exceptDate = k <;>
      cases hl : l.foldl (fun acc e => if dateKey e.exceptDate = k then some e else acc) none <;>
      simp [h, orD, hl]

theorem lookupExc_cons (k : Int) (e : BookingException) (l : List BookingException) :
    lookupExc (e :: l) k
      = orD (lookupExc l k) (if dateKey e.exceptDate = k then some e else none) := by
  simp only [lookupExc, List.foldl_cons]
  exact lookupFold_eq_orD k l _

theorem mapGet_cons (a : Int) (b : BookingException) (m : List (Int × BookingException))
    (k : Int) : mapGet ((a, b) :: m) k = if a = k then some b else mapGet m k := by
  by_cases h : a = k <;> simp [mapGet, List.find?, h]

theorem mapGet_mapSet (m : List (Int × BookingException)) (k' : Int) (v : BookingException)
    (k : Int) : mapGet (mapSet m k' v) k = if k' = k then some v else mapGet m k := by
  induction m with
  | nil =>
    simp only [mapSet]
    by_cases h : k' = k <;> simp [mapGet_cons, mapGet, h]
  | cons p rest ih =>
    obtain ⟨pk, pv⟩ := p
    by_cases h1 : pk = k'
    · subst h1
      simp only [mapSet, if_pos rfl, mapGet_cons]
      by_cases h2 : pk = k <;> simp [h2, mapGet_cons]
    · simp only [mapSet, if_neg h1, mapGet_cons, ih]
      by_cases h2 : pk = k
      · subst h2
        have h3 : ¬ k' = pk := fun hc => h1 hc.symm
        simp [h3]
      · simp [h2]

theorem mapGet_buildFold (exs : List BookingException) (m : List (Int × BookingException))
    (k : Int) :
    mapGet (exs.foldl (fun m e => mapSet m (dateKey e.exceptDate) e) m) k
      = orD (lookupExc exs k) (mapGet m k) := by
  induction exs generalizing m with
  | nil => simp [lookupExc, orD]
  | cons e exs ih =>
    simp only [List.foldl_cons]
    rw [ih, lookupExc_cons, mapGet_mapSet]
    by_cases h : dateKey e.exceptDate = k <;>
      cases hl : lookupExc exs k <;> simp [h, orD]

theorem mapGet_buildExceptionMap (exs : List BookingException) (k : Int) :
    mapGet (buildExceptionMap exs) k = lookupExc exs k := by
  rw [buildExceptionMap, mapGet_buildFold]
  rw [show mapGet [] k = none from rfl, orD_none]

/-! ### Lemmas: the expansion loop -/

theorem expandLoop_eq_filterMap (exs : List BookingException) (duration : Int)
    (l : List Int) (init : List TimeSlot) :
    l.foldl
      (fun instances o =>
        match mapGet (buildExceptionMap exs) (dateKey o) with
        | some exc =>
          match exc.replaceStart, exc.replaceEnd with
          | some rs, some re => instances ++ [⟨rs, re⟩]
          | _, _ => instances
        | none => instances ++ [⟨o, o + duration⟩])
      init = init ++ l.filterMap (emitFor exs duration) := by
  induction l generalizing init with
  | nil => simp
  | cons o l ih =>
    simp only [List.foldl_cons, List.filterMap_cons]
    rw [mapGet_buildExceptionMap]
    cases hl : lookupExc exs (dateKey o) with
    | none => rw [ih]; simp [emitFor, hl]
    | some exc =>
      cases hrs : exc.replaceStart <;> cases hre : exc.replaceEnd <;>
        rw [ih] <;> simp [emitFor, hl, hrs, hre]

theorem expandOccurrences_eq_filterMap (rule : RRuleData)
    (windowStart windowEnd baseStart baseEnd : Int) (exs : List BookingException) :
    expandOccurrences rule windowStart windowEnd baseStart baseEnd exs
      = ((ruleInstants rule baseStart).filter
          (fun o => decide (windowStart ≤ o) && decide (o ≤ windowEnd))).filterMap
          (emitFor exs (baseEnd - baseStart)) := by
  simp only [expandOccurrences]
  exact expandLoop_eq_filterMap exs (baseEnd - baseStart) _ []

theorem emitFor_eq_specApply (exs : List BookingException) (duration : Int) (o : Int) :
    emitFor exs duration o = specApplyException exs duration o := by
  simp only [emitFor, specApplyException]
  cases lookupExc exs (dateKey o) with
  | none => rfl
  | some exc => cases hrs : exc.replaceStart <;> cases hre : exc.replaceEnd <;> simp [hrs, hre]

theorem lookupExc_append (k : Int) (l1 l2 : List BookingException) :
    lookupExc (l1 ++ l2) k = orD (lookupExc l2 k) (lookupExc l1 k) := by
  simp only [lookupExc, List.foldl_append]
  exact lookupFold_eq_orD k l2 _

theorem lookupExc_append_self (k : Int) (l : List BookingException) :
    lookupExc (l ++ l) k = lookupExc l k := by
  rw [lookupExc_append]
  cases h : lookupExc l k <;> simp [orD]

theorem lookupExc_map_normalize (k : Int) (l : List BookingException) :
    lookupExc (l.map normalizeException) k = (lookupExc l k).map normalizeException := by
  induction l with
  | nil => rfl
  | cons e l ih =>
    rw [List.map_cons, lookupExc_cons, lookupExc_cons, ih]
    have hdate : dateKey (normalizeException e).exceptDate = dateKey e.exceptDate := by
      simp only [normalizeException]
      cases e.replaceStart <;> cases e.replaceEnd <;> rfl
    rw [hdate]
    cases hl : lookupExc l k <;> by_cases h : dateKey e.exceptDate = k <;> simp [orD, h]

theorem lookupExc_mem (k : Int) (l : List BookingException) (e : BookingException)
    (h : lookupExc l k = some e) : e ∈ l := by
  induction l with
  | nil => simp [lookupExc] at h
  | cons x l ih =>
    rw [lookupExc_cons] at h
    cases hl : lookupExc l k with
    | some v =>
      rw [hl] at h
      simp only [orD] at h
      exact List.mem_cons_of_mem x (ih (hl.trans h))
    | none =>
      rw [hl] at h
      simp only [orD] at h
      by_cases hd : dateKey x.exceptDate = k
      · rw [if_pos hd] at h
        exact (Option.some_inj.mp h) ▸ List.mem_cons_self x l
      · rw [if_neg hd] at h
        exact absurd h (by simp)

/-! ### Claim theorems about the recurrence expander -/

/-- Claim C3: for a valid rule, window, base interval and a both-or-neither
exception list, `expandOccurrences` enumerates exactly the rule instants
`o` with `windowStart ≤ o ≤ windowEnd` (DTSTART bound to `baseStart` when
the rule text carries none, as `ruleInstants` does), and emits, in rule
order, the replacement interval when the occurrence's UTC date has a
replacement exception, nothing when it has a skip exception, and
`[o, o + D)` with `D = baseEnd - baseStart` otherwise. -/
theorem expandOccurrences_enumeration_spec (rule : RRuleData)
    (windowStart windowEnd baseStart baseEnd : Int) (exs : List BookingException)
    (_hexc : ∀ e ∈ exs, e.replaceStart.isSome = e.replaceEnd.isSome) :
    expandOccurrences rule windowStart windowEnd baseStart baseEnd exs
      = ((ruleInstants rule baseStart).filter
          (fun o => decide (windowStart ≤ o) && decide (o ≤ windowEnd))).filterMap
          (specApplyException exs (baseEnd - baseStart)) := by
  rw [expandOccurrences_eq_filterMap]
  have h : emitFor exs (baseEnd - baseStart) = specApplyException exs (baseEnd - baseStart) :=
    funext fun o => emitFor_eq_specApply exs (baseEnd - baseStart) o
  rw [h]

/-- Claim C3, witness: the theorem applied to the one-occurrence rule with a
replacement exception on day 0 over the window `[0, 10]`. -/
theorem expandOccurrences_enumeration_spec_witness :
    (∀ e ∈ [BookingException.mk 0 (some 2642400000) (some 2646000000)],
        e.replaceStart.isSome = e.replaceEnd.isSome) ∧
      expandOccurrences ruleOne 0 10 0 3600000
          [BookingException.mk 0 (some 2642400000) (some 2646000000)]
        = (((ruleInstants ruleOne 0).filter
            (fun o => decide ((0 : Int) ≤ o) && decide (o ≤ 10))).filterMap
            (specApplyException [BookingException.mk 0 (some 2642400000) (some 2646000000)]
              (3600000 - 0))) :=
  ⟨by decide, expandOccurrences_enumeration_spec ruleOne 0 10 0 3600000
    [BookingException.mk 0 (some 2642400000) (some 2646000000)] (by decide)⟩

/-- Claim C8: expanding with the exception list concatenated with itself
yields the same occurrences as expanding with the list once — exception
application dedupes by UTC-date key with last-write-wins. -/
theorem expandOccurrences_exception_idempotent (rule : RRuleData)
    (windowStart windowEnd baseStart baseEnd : Int) (exs : List BookingException) :
    expandOccurrences rule windowStart windowEnd baseStart baseEnd (exs ++ exs)
      = expandOccurrences rule windowStart windowEnd baseStart baseEnd exs := by
  rw [expandOccurrences_eq_filterMap, expandOccurrences_eq_filterMap]
  have h : emitFor (exs ++ exs) (baseEnd - baseStart) = emitFor exs (baseEnd - baseStart) := by
    funext o
    simp only [emitFor, lookupExc_append_self]
  rw [h]

/-- Claim C9: an exception carrying exactly one replacement field behaves
exactly as a skip: expansion is unchanged when every such lone field is
stripped (`normalizeException`), and in particular no replacement is
emitted and no failure occurs for the matched occurrence. -/
theorem expandOccurrences_lone_replacement_skip (rule : RRuleData)
    (windowStart windowEnd baseStart baseEnd : Int) (exs : List BookingException) :
    expandOccurrences rule windowStart windowEnd baseStart baseEnd exs
      = expandOccurrences rule windowStart windowEnd baseStart baseEnd
          (exs.map normalizeException) := by
  rw [expandOccurrences_eq_filterMap, expandOccurrences_eq_filterMap]
  have h : emitFor (exs.map normalizeException) (baseEnd - baseStart)
      = emitFor exs (baseEnd - baseStart) := by
    funext o
    simp only [emitFor, lookupExc_map_normalize]
    cases hl : lookupExc exs (dateKey o) with
    | none => rfl
    | some exc =>
      simp only [Option.map_some]
      cases hrs : exc.replaceStart <;> cases hre : exc.replaceEnd <;>
        simp [normalizeException, hrs, hre]
  rw [h]

/-! ### Claim theorem about the configuration -/

/-- Claim C5: the config schema of `src/config.ts` defines no
`recurrenceExpansionDays` field and `parseConfig` never reads the
`RECURRENCE_EXPANSION_DAYS` environment variable, so the horizon read by
`createRecurringBooking` (`config.recurrenceExpansionDays`) is undefined
and `parseInt` of it is `NaN` — the configurable 90-day validation window
of the spec is not implemented. -/
theorem recurrenceExpansionDays_not_configured :
    configSchemaKeys.contains "recurrenceExpansionDays" = false ∧
      envVarsRead.contains "RECURRENCE_EXPANSION_DAYS" = false := by
  decide

/-! ### Claim theorem about the overlap predicate -/

/-- Claim C6: `intervalsOverlap` holds exactly when
`a.start < b.end AND b.start < a.end`; consequently every conflict reported
by `hasConflict` for a request `[b, c)` ends strictly after `b`, so an
existing booking `[a, b)` sharing only the boundary instant `b` is never
reported as a conflict. -/
theorem intervalsOverlap_halfopen_adjacency (s1 e1 s2 e2 : Int) (store : Store)
    (resourceId : Nat) (b c : Int) :
    (intervalsOverlap s1 e1 s2 e2 = true ↔ (s1 < e2 ∧ s2 < e1)) ∧
      (∀ inst ∈ (hasConflict store resourceId b c).conflicts,
        b < inst.stop ∧ inst.start < c) := by
  constructor
  · simp [intervalsOverlap]
  · intro inst hmem
    simp only [hasConflict] at hmem
    have := List.mem_filter.mp hmem
    have hb := this.2
    simp only [Bool.and_eq_true, decide_eq_true_eq] at hb
    exact hb

/-- Claim C6, witness: the theorem applied to concrete intervals and to the
store holding `[0, 120000)`, whose conflict list for the request
`[50000, 150000)` contains the instance `[0, 120000)`. -/
theorem intervalsOverlap_halfopen_adjacency_witness :
    (intervalsOverlap 0 2 1 3 = true ↔ ((0 : Int) < 3 ∧ (1 : Int) < 2)) ∧
      ((50000 : Int) < 120000 ∧ (0 : Int) < 150000) :=
  ⟨(intervalsOverlap_halfopen_adjacency 0 2 1 3 storeA 1 50000 150000).1,
    (intervalsOverlap_halfopen_adjacency 0 2 1 3 storeA 1 50000 150000).2
      ⟨1, 0, 120000, false⟩ (by decide)⟩

/-! ### Lemmas: interval merging -/

theorem chain_sep_head_lt (a : TimeSlot) (l : List TimeSlot)
    (hch : List.Chain' sepSlots (a :: l)) (hwf : ∀ s ∈ l, s.start ≤ s.stop) :
    ∀ b ∈ l, a.stop < b.start := by
  induction l generalizing a with
  | nil => intro b hb; simp at hb
  | cons c rest ih =>
    intro b hb
    have hac : sepSlots a c := (List.chain'_cons.mp hch).1
    rcases List.mem_cons.mp hb with hb | hb
    · exact hb ▸ hac
    · have hcb := ih c (List.chain'_cons.mp hch).2 (fun s hs => hwf s (List.mem_cons_of_mem c hs)) b hb
      have hc := hwf c (List.mem_cons_self c rest)
      exact lt_of_lt_of_le hac (le_trans hc (le_of_lt hcb))

theorem chain_sep_pairwise (l : List TimeSlot) (hch : List.Chain' sepSlots l)
    (hwf : ∀ s ∈ l, s.start ≤ s.stop) : List.Pairwise sepSlots l := by
  induction l with
  | nil => exact List.Pairwise.nil
  | cons a rest ih =>
    refine List.pairwise_cons.mpr ⟨?_, ?_⟩
    · exact chain_sep_head_lt a rest hch (fun s hs => hwf s (List.mem_cons_of_mem a hs))
    · exact ih (List.chain'_cons'.mp hch).2 (fun s hs => hwf s (List.mem_cons_of_mem a hs))

theorem mergeGo_head (l : List TimeSlot) (last : TimeSlot) :
    ∃ z tl2, mergeGo last l = ⟨last.start, z⟩ :: tl2 ∧ last.stop ≤ z := by
  induction l generalizing last with
  | nil => exact ⟨last.stop, [], rfl, le_refl _⟩
  | cons cur rest ih =>
    by_cases h : cur.start ≤ last.stop
    · obtain ⟨z, tl2, heq, hle⟩ := ih ⟨last.start, max last.stop cur.stop⟩
      exact ⟨z, tl2, by simp [mergeGo, h, heq], le_trans (le_max_left _ _) hle⟩
    · exact ⟨last.stop, mergeGo cur rest, by simp [mergeGo, h], le_refl _⟩

theorem mergeGo_ne_nil (l : List TimeSlot) (last : TimeSlot) : mergeGo last l ≠ [] := by
  obtain ⟨z, tl2, heq, _⟩ := mergeGo_head l last
  simp [heq]

theorem mergeGo_chain (l : List TimeSlot) (last : TimeSlot)
    (hs : List.Sorted slotLE (last :: l)) : List.Chain' sepSlots (mergeGo last l) := by
  induction l generalizing last with
  | nil => simp [mergeGo]
  | cons cur rest ih =>
    obtain ⟨hhead, htail⟩ := List.sorted_cons.mp hs
    by_cases h : cur.start ≤ last.stop
    · have hs' : List.Sorted slotLE (⟨last.start, max last.stop cur.stop⟩ :: rest) := by
        refine List.sorted_cons.mpr ⟨?_, (List.sorted_cons.mp htail).2⟩
        intro b hb
        exact hhead b (List.mem_cons_of_mem cur hb)
      simpa [mergeGo, h] using ih _ hs'
    · obtain ⟨z, tl2, heq, _⟩ := mergeGo_head rest cur
      have hch := ih cur htail
      have hsep : sepSlots last ⟨cur.start, z⟩ := lt_of_not_le h
      simp only [mergeGo, if_neg h]
      refine List.chain'_cons'.mpr ⟨?_, hch⟩
      intro y hy
      rw [heq] at hy
      simp only [List.head?_cons, Option.mem_def, Option.some_inj] at hy
      exact hy ▸ hsep

theorem mergeGo_wf (l : List TimeSlot) (last : TimeSlot)
    (hl : last.start ≤ last.stop) (hall : ∀ s ∈ l, s.start ≤ s.stop) :
    ∀ m ∈ mergeGo last l, m.start ≤ m.stop := by
  induction l generalizing last with
  | nil => intro m hm; simp [mergeGo] at hm; exact hm ▸ hl
  | cons cur rest ih =>
    intro m hm
    by_cases h : cur.start ≤ last.stop
    · simp only [mergeGo, if_pos h] at hm
      refine ih ⟨last.start, max last.stop cur.stop⟩ ?_
        (fun s hs => hall s (List.mem_cons_of_mem cur hs)) m hm
      exact le_trans hl (le_max_left _ _)
    · simp only [mergeGo, if_neg h] at hm
      rcases List.mem_cons.mp hm with hm | hm
      · exact hm ▸ hl
      · exact ih cur (hall cur (List.mem_cons_self cur rest))
          (fun s hs => hall s (List.mem_cons_of_mem cur hs)) m hm

theorem mergeGo_contains (l : List TimeSlot) (last : TimeSlot)
    (hs : List.Sorted slotLE (last :: l)) :
    ∀ s ∈ last :: l, ∃ m ∈ mergeGo last l, m.start ≤ s.start ∧ s.stop ≤ m.stop := by
  induction l generalizing last with
  | nil =>
    intro s hsm
    simp only [List.mem_singleton] at hsm
    exact ⟨last, by simp [mergeGo], hsm ▸ ⟨le_refl _, le_refl _⟩⟩
  | cons cur rest ih =>
    intro s hsm
    obtain ⟨hhead, htail⟩ := List.sorted_cons.mp hs
    by_cases h : cur.start ≤ last.stop
    · have hs' : List.Sorted slotLE (⟨last.start, max last.stop cur.stop⟩ :: rest) := by
        refine List.sorted_cons.mpr ⟨?_, (List.sorted_cons.mp htail).2⟩
        intro b hb
        exact hhead b (List.mem_cons_of_mem cur hb)
      have ihm := ih ⟨last.start, max last.stop cur.stop⟩ hs'
      simp only [mergeGo, if_pos h]
      rcases List.mem_cons.mp hsm with hsm | hsm
      · obtain ⟨m, hmm, h1, h2⟩ := ihm ⟨last.start, max last.stop cur.stop⟩
          (List.mem_cons_self _ _)
        exact ⟨m, hmm, hsm ▸ ⟨h1, le_trans (le_max_left _ _) h2⟩⟩
      rcases List.mem_cons.mp hsm with hsm | hsm
      · obtain ⟨m, hmm, h1, h2⟩ := ihm ⟨last.start, max last.stop cur.stop⟩
          (List.mem_cons_self _ _)
        refine ⟨m, hmm, hsm ▸ ⟨le_trans h1 ?_, le_trans ?_ h2⟩⟩
        · exact hhead cur (List.mem_cons_self cur rest)
        · exact le_max_right _ _
      · obtain ⟨m, hmm, h1, h2⟩ := ihm s (List.mem_cons_of_mem _ hsm)
        exact ⟨m, hmm, h1, h2⟩
    · simp only [mergeGo, if_neg h]
      rcases List.mem_cons.mp hsm with hsm | hsm
      · exact ⟨last, List.mem_cons_self _ _, hsm ▸ ⟨le_refl _, le_refl _⟩⟩
      · obtain ⟨m, hmm, h1, h2⟩ := ih cur htail s hsm
        exact ⟨m, List.mem_cons_of_mem last hmm, h1, h2⟩

theorem mergeGo_covers_orig (l : List TimeSlot) (last : TimeSlot) :
    ∀ m ∈ mergeGo last l, ∀ x : Int, covers m x → ∃ s ∈ last :: l, covers s x := by
  induction l generalizing last with
  | nil =>
    intro m hm x hc
    simp only [mergeGo, List.mem_singleton] at hm
    exact ⟨last, List.mem_cons_self _ _, hm ▸ hc⟩
  | cons cur rest ih =>
    intro m hm x hc
    by_cases h : cur.start ≤ last.stop
    · simp only [mergeGo, if_pos h] at hm
      obtain ⟨s, hsm, hcs⟩ := ih ⟨last.start, max last.stop cur.stop⟩ m hm x hc
      rcases List.mem_cons.mp hsm with hsm | hsm
      · subst hsm
        obtain ⟨h1, h2⟩ := hcs
        simp only at h1 h2
        by_cases hx : x < last.stop
        · exact ⟨last, List.mem_cons_self _ _, h1, hx⟩
        · have hxc : cur.start ≤ x := le_trans h (le_of_not_lt hx)
          have hmax : x < cur.stop := by
            rcases max_cases last.stop cur.stop with ⟨hm1, _⟩ | ⟨hm1, _⟩
            · exact absurd (hm1 ▸ h2) hx
            · exact hm1 ▸ h2
          exact ⟨cur, List.mem_cons_of_mem _ (List.mem_cons_self _ _), hxc, hmax⟩
      · exact ⟨s, List.mem_cons_of_mem _ (List.mem_cons_of_mem _ hsm), hcs⟩
    · simp only [mergeGo, if_neg h] at hm
      rcases List.mem_cons.mp hm with hm | hm
      · exact ⟨last, List.mem_cons_self _ _, hm ▸ hc⟩
      · obtain ⟨s, hsm, hcs⟩ := ih cur m hm x hc
        exact ⟨s, List.mem_cons_of_mem _ hsm, hcs⟩

theorem mergeGo_anchors (l : List TimeSlot) (last : TimeSlot) :
    ∀ m ∈ mergeGo last l,
      (m.start = last.start ∨ ∃ s ∈ l, m.start = s.start) ∧
        (m.stop = last.stop ∨ ∃ s ∈ l, m.stop = s.stop) := by
  induction l generalizing last with
  | nil =>
    intro m hm
    simp only [mergeGo, List.mem_singleton] at hm
    exact ⟨Or.inl (hm ▸ rfl), Or.inl (hm ▸ rfl)⟩
  | cons cur rest ih =>
    intro m hm
    by_cases h : cur.start ≤ last.stop
    · simp only [mergeGo, if_pos h] at hm
      obtain ⟨h1, h2⟩ := ih ⟨last.start, max last.stop cur.stop⟩ m hm
      constructor
      · rcases h1 with h1 | ⟨s, hs, h1⟩
        · exact Or.inl h1
        · exact Or.inr ⟨s, List.mem_cons_of_mem _ hs, h1⟩
      · rcases h2 with h2 | ⟨s, hs, h2⟩
        · simp only at h2
          rcases max_cases last.stop cur.stop with ⟨hm1, _⟩ | ⟨hm1, _⟩
          · exact Or.inl (h2.trans hm1)
          · exact Or.inr ⟨cur, List.mem_cons_self _ _, h2.trans hm1⟩
        · exact Or.inr ⟨s, List.mem_cons_of_mem _ hs, h2⟩
    · simp only [mergeGo, if_neg h] at hm
      rcases List.mem_cons.mp hm with hm | hm
      · exact ⟨Or.inl (hm ▸ rfl), Or.inl (hm ▸ rfl)⟩
      · obtain ⟨h1, h2⟩ := ih cur m hm
        constructor
        · rcases h1 with h1 | ⟨s, hs, h1⟩
          · exact Or.inr ⟨cur, List.mem_cons_self _ _, h1⟩
          · exact Or.inr ⟨s, List.mem_cons_of_mem _ hs, h1⟩
        · rcases h2 with h2 | ⟨s, hs, h2⟩
          · exact Or.inr ⟨cur, List.mem_cons_self _ _, h2⟩
          · exact Or.inr ⟨s, List.mem_cons_of_mem _ hs, h2⟩

theorem mergeGo_wf_strict (l : List TimeSlot) (last : TimeSlot)
    (hl : last.start < last.stop) (hall : ∀ s ∈ l, s.start < s.stop) :
    ∀ m ∈ mergeGo last l, m.start < m.stop := by
  induction l generalizing last with
  | nil => intro m hm; simp [mergeGo] at hm; exact hm ▸ hl
  | cons cur rest ih =>
    intro m hm
    by_cases h : cur.start ≤ last.stop
    · simp only [mergeGo, if_pos h] at hm
      refine ih ⟨last.start, max last.stop cur.stop⟩ ?_
        (fun s hs => hall s (List.mem_cons_of_mem cur hs)) m hm
      exact lt_of_lt_of_le hl (le_max_left _ _)
    · simp only [mergeGo, if_neg h] at hm
      rcases List.mem_cons.mp hm with hm | hm
      · exact hm ▸ hl
      · exact ih cur (hall cur (List.mem_cons_self cur rest))
          (fun s hs => hall s (List.mem_cons_of_mem cur hs)) m hm

theorem mergeIntervals_chain (busy : List TimeSlot) :
    List.Chain' sepSlots (mergeIntervals busy) := by
  have hs := List.sorted_insertionSort slotLE busy
  rw [mergeIntervals]
  cases h : List.insertionSort slotLE busy with
  | nil => simp [mergeSorted]
  | cons a l => exact mergeGo_chain l a (h ▸ hs)

theorem mem_insertionSort_slot (busy : List TimeSlot) (s : TimeSlot) :
    s ∈ List.insertionSort slotLE busy ↔ s ∈ busy :=
  (List.perm_insertionSort slotLE busy).mem_iff

theorem mergeIntervals_wf (busy : List TimeSlot) (h : ∀ s ∈ busy, s.start ≤ s.stop) :
    ∀ m ∈ mergeIntervals busy, m.start ≤ m.stop := by
  rw [mergeIntervals]
  cases heq : List.insertionSort slotLE busy with
  | nil => simp [mergeSorted]
  | cons a l =>
    have hmem : ∀ s ∈ a :: l, s.start ≤ s.stop := by
      intro s hs
      exact h s ((mem_insertionSort_slot busy s).mp (heq ▸ hs))
    exact mergeGo_wf l a (hmem a (List.mem_cons_self a l))
      (fun s hs => hmem s (List.mem_cons_of_mem a hs))

theorem mergeIntervals_wf_strict (busy : List TimeSlot) (h : ∀ s ∈ busy, s.start < s.stop) :
    ∀ m ∈ mergeIntervals busy, m.start < m.stop := by
  rw [mergeIntervals]
  cases heq : List.insertionSort slotLE busy with
  | nil => simp [mergeSorted]
  | cons a l =>
    have hmem : ∀ s ∈ a :: l, s.start < s.stop := by
      intro s hs
      exact h s ((mem_insertionSort_slot busy s).mp (heq ▸ hs))
    exact mergeGo_wf_strict l a (hmem a (List.mem_cons_self a l))
      (fun s hs => hmem s (List.mem_cons_of_mem a hs))

theorem mergeIntervals_contains (busy : List TimeSlot) :
    ∀ s ∈ busy, ∃ m ∈ mergeIntervals busy, m.start ≤ s.start ∧ s.stop ≤ m.stop := by
  intro s hs
  rw [mergeIntervals]
  have hs' : s ∈ List.insertionSort slotLE busy := (mem_insertionSort_slot busy s).mpr hs
  cases heq : List.insertionSort slotLE busy with
  | nil => rw [heq] at hs'; simp at hs'
  | cons a l =>
    have hsort := List.sorted_insertionSort slotLE busy
    exact mergeGo_contains l a (heq ▸ hsort) s (heq ▸ hs')

theorem mergeIntervals_covers_orig (busy : List TimeSlot) :
    ∀ m ∈ mergeIntervals busy, ∀ x : Int, covers m x → ∃ s ∈ busy, covers s x := by
  intro m hm x hc
  rw [mergeIntervals] at hm
  cases heq : List.insertionSort slotLE busy with
  | nil => rw [heq] at hm; simp [mergeSorted] at hm
  | cons a l =>
    rw [heq] at hm
    obtain ⟨s, hsm, hcs⟩ := mergeGo_covers_orig l a m hm x hc
    exact ⟨s, (mem_insertionSort_slot busy s).mp (heq ▸ hsm), hcs⟩

theorem mergeIntervals_anchors (busy : List TimeSlot) :
    ∀ m ∈ mergeIntervals busy,
      (∃ s ∈ busy, m.start = s.start) ∧ (∃ s ∈ busy, m.stop = s.stop) := by
  intro m hm
  rw [mergeIntervals] at hm
  cases heq : List.insertionSort slotLE busy with
  | nil => rw [heq] at hm; simp [mergeSorted] at hm
  | cons a l =>
    rw [heq] at hm
    obtain ⟨h1, h2⟩ := mergeGo_anchors l a m hm
    constructor
    · rcases h1 with h1 | ⟨s, hs, h1⟩
      · exact ⟨a, (mem_insertionSort_slot busy a).mp (heq ▸ List.mem_cons_self a l), h1⟩
      · exact ⟨s, (mem_insertionSort_slot busy s).mp (heq ▸ List.mem_cons_of_mem a hs), h1⟩
    · rcases h2 with h2 | ⟨s, hs, h2⟩
      · exact ⟨a, (mem_insertionSort_slot busy a).mp (heq ▸ List.mem_cons_self a l), h2⟩
      · exact ⟨s, (mem_insertionSort_slot busy s).mp (heq ▸ List.mem_cons_of_mem a hs), h2⟩

theorem mergeIntervals_eq_nil_iff (busy : List TimeSlot) :
    mergeIntervals busy = [] ↔ busy = [] := by
  rw [mergeIntervals]
  constructor
  · intro h
    cases heq : List.insertionSort slotLE busy with
    | nil =>
      have := (List.perm_insertionSort slotLE busy).length_eq
      rw [heq] at this
      exact List.length_eq_zero.mp this.symm
    | cons a l => rw [heq] at h; exact absurd h (mergeGo_ne_nil l a)
  · intro h
    subst h
    simp [mergeSorted]

/-! ### Lemmas: gap candidates -/

theorem diffMinutes_lt_iff (b a min : Int) :
    diffMinutes b a < min ↔ b - a < min * 60000 :=
  Int.ediv_lt_iff_lt_mul (by norm_num)

theorem le_diffMinutes_iff (b a min : Int) :
    min ≤ diffMinutes b a ↔ min * 60000 ≤ b - a :=
  Int.le_ediv_iff_mul_le (by norm_num)

theorem midsBack_eq (we min : Int) (tl : List TimeSlot) (prev : TimeSlot)
    (hch : List.Chain' sepSlots (prev :: tl)) :
    ((prev :: tl).zip tl).filterMap (fun p =>
        if min ≤ diffMinutes p.2.start p.1.stop then some ⟨p.1.stop, p.2.start⟩ else none)
      ++ (if ((prev :: tl).getLastD prev).stop < we then
            if min ≤ diffMinutes we ((prev :: tl).getLastD prev).stop then
              [⟨((prev :: tl).getLastD prev).stop, we⟩]
            else []
          else [])
      = (candRec we prev.stop tl).filter (keepGap min) := by
  induction tl generalizing prev with
  | nil =>
    simp only [List.zip_nil_right, List.filterMap_nil, List.nil_append, List.getLastD_cons,
      List.getLastD_nil, candRec]
    by_cases h1 : prev.stop < we <;> by_cases h2 : min ≤ diffMinutes we prev.stop <;>
      simp [h1, h2, List.filter_cons, keepGap]
  | cons m1 tl' ih =>
    have hch' : List.Chain' sepSlots (m1 :: tl') := (List.chain'_cons.mp hch).2
    have hsep : prev.stop < m1.start := (List.chain'_cons.mp hch).1
    have hihs := ih m1 hch'
    simp only [List.getLastD_cons] at hihs ⊢
    rw [List.zip_cons_cons, List.filterMap_cons]
    simp only [candRec, List.filter_cons]
    by_cases h2 : min ≤ diffMinutes m1.start prev.stop
    · have hk : keepGap min ⟨prev.stop, m1.start⟩ = true := by
        simp [keepGap, hsep, h2]
      rw [if_pos h2]
      simp only [hk, if_true, List.cons_append]
      rw [hihs]
    · have hk : keepGap min ⟨prev.stop, m1.start⟩ = false := by
        simp [keepGap, h2]
      rw [if_neg h2]
      simp only [hk, Bool.false_eq_true, if_false]
      exact hihs

theorem findGaps_eq_filter (busy : List TimeSlot) (ws we min : Int)
    (m0 : TimeSlot) (tl : List TimeSlot) (hmg : mergeIntervals busy = m0 :: tl) :
    findGaps busy ws we min = (candRec we ws (m0 :: tl)).filter (keepGap min) := by
  have hch : List.Chain' sepSlots (m0 :: tl) := hmg ▸ mergeIntervals_chain busy
  simp only [findGaps, hmg]
  rw [List.append_assoc, midsBack_eq we min tl m0 hch]
  simp only [candRec, List.filter_cons]
  by_cases h1 : ws < m0.start
  · by_cases h2 : min ≤ diffMinutes m0.start ws
    · have hk : keepGap min ⟨ws, m0.start⟩ = true := by simp [keepGap, h1, h2]
      simp [h1, h2, hk]
    · have hk : keepGap min ⟨ws, m0.start⟩ = false := by simp [keepGap, h2]
      simp [h1, h2, hk]
  · have hk : keepGap min ⟨ws, m0.start⟩ = false := by simp [keepGap, h1]
    simp [h1, hk]

theorem candRec_anchors (we : Int) (l : List TimeSlot) (c : Int) :
    ∀ g ∈ candRec we c l,
      (g.start = c ∨ ∃ m ∈ l, g.start = m.stop) ∧
        (g.stop = we ∨ ∃ m ∈ l, g.stop = m.start) := by
  induction l generalizing c with
  | nil =>
    intro g hg
    simp only [candRec, List.mem_singleton] at hg
    exact ⟨Or.inl (hg ▸ rfl), Or.inl (hg ▸ rfl)⟩
  | cons m rest ih =>
    intro g hg
    simp only [candRec] at hg
    rcases List.mem_cons.mp hg with hg | hg
    · exact ⟨Or.inl (hg ▸ rfl), Or.inr ⟨m, List.mem_cons_self _ _, hg ▸ rfl⟩⟩
    · obtain ⟨h1, h2⟩ := ih m.stop g hg
      constructor
      · rcases h1 with h1 | ⟨m', hm', h1⟩
        · exact Or.inr ⟨m, List.mem_cons_self _ _, h1⟩
        · exact Or.inr ⟨m', List.mem_cons_of_mem _ hm', h1⟩
      · rcases h2 with h2 | ⟨m', hm', h2⟩
        · exact Or.inl h2
        · exact Or.inr ⟨m', List.mem_cons_of_mem _ hm', h2⟩

theorem candRec_pairwise (we : Int) (l : List TimeSlot) (c : Int)
    (hch : List.Chain' sepSlots l) (hwf : ∀ m ∈ l, m.start ≤ m.stop) :
    List.Pairwise gapLE (candRec we c l) := by
  induction l generalizing c with
  | nil => simp [candRec]
  | cons m rest ih =>
    simp only [candRec]
    refine List.pairwise_cons.mpr ⟨?_, ?_⟩
    · intro g hg
      obtain ⟨h1, _⟩ := candRec_anchors we rest m.stop g hg
      show m.start ≤ g.start
      rcases h1 with h1 | ⟨m', hm', h1⟩
      · exact h1 ▸ hwf m (List.mem_cons_self _ _)
      · have : m.stop < m'.start := chain_sep_head_lt m rest hch
          (fun s hs => hwf s (List.mem_cons_of_mem m hs)) m' hm'
        have h3 : m'.start ≤ m'.stop := hwf m' (List.mem_cons_of_mem m hm')
        have := le_trans (hwf m (List.mem_cons_self _ _)) (le_of_lt this)
        exact h1 ▸ le_trans this h3
    · exact ih m.stop ((List.chain'_cons'.mp hch).2)
        (fun s hs => hwf s (List.mem_cons_of_mem m hs))

theorem candRec_free (we : Int) (l : List TimeSlot) (c : Int)
    (hch : List.Chain' sepSlots l) (hwf : ∀ m ∈ l, m.start ≤ m.stop) :
    ∀ g ∈ candRec we c l, ∀ m ∈ l, m.stop ≤ g.start ∨ g.stop ≤ m.start := by
  induction l generalizing c with
  | nil => intro g _ m hm; simp at hm
  | cons m0 rest ih =>
    intro g hg m hm
    simp only [candRec] at hg
    rcases List.mem_cons.mp hg with hg | hg
    · refine Or.inr ?_
      rcases List.mem_cons.mp hm with hm | hm
      · exact hg ▸ (hm ▸ le_refl m0.start)
      · have := chain_sep_head_lt m0 rest hch
          (fun s hs => hwf s (List.mem_cons_of_mem m0 hs)) m hm
        have h2 := hwf m0 (List.mem_cons_self _ _)
        exact hg ▸ le_of_lt (lt_of_le_of_lt h2 this)
    · rcases List.mem_cons.mp hm with hm | hm
      · refine Or.inl ?_
        obtain ⟨h1, _⟩ := candRec_anchors we rest m0.stop g hg
        rcases h1 with h1 | ⟨m', hm', h1⟩
        · exact hm ▸ (h1 ▸ le_refl _)
        · have := chain_sep_head_lt m0 rest hch
            (fun s hs => hwf s (List.mem_cons_of_mem m0 hs)) m' hm'
          have h3 := hwf m' (List.mem_cons_of_mem m0 hm')
          exact hm ▸ (h1 ▸ le_trans (le_of_lt this) h3)
      · exact ih m0.stop ((List.chain'_cons'.mp hch).2)
          (fun s hs => hwf s (List.mem_cons_of_mem m0 hs)) g hg m hm

theorem candRec_coverage (we min : Int) (l : List TimeSlot) (c : Int)
    (hch : List.Chain' sepSlots l) (hwf : ∀ m ∈ l, m.start ≤ m.stop)
    (hcs : ∀ m ∈ l, c ≤ m.stop) :
    ∀ x : Int, c ≤ x → x < we →
      (∃ m ∈ l, covers m x) ∨
        (∃ g ∈ (candRec we c l).filter (keepGap min), covers g x) ∨
        (∃ a b : Int, c ≤ a ∧ a ≤ x ∧ x < b ∧ b - a < min * 60000 ∧
          ∀ m ∈ l, m.stop ≤ a ∨ b ≤ m.start) := by
  induction l generalizing c with
  | nil =>
    intro x hcx hxe
    by_cases hk : min ≤ diffMinutes we c
    · refine Or.inr (Or.inl ⟨⟨c, we⟩, ?_, hcx, hxe⟩)
      refine List.mem_filter.mpr ⟨List.mem_singleton.mpr rfl, ?_⟩
      simp [keepGap, lt_of_le_of_lt hcx hxe, hk]
    · refine Or.inr (Or.inr ⟨c, we, le_refl c, hcx, hxe, ?_, fun m hm => absurd hm (by simp)⟩)
      exact (diffMinutes_lt_iff we c min).mp (lt_of_not_le hk)
  | cons m0 rest ih =>
    intro x hcx hxe
    by_cases hx1 : x < m0.start
    · by_cases hk : min ≤ diffMinutes m0.start c
      · refine Or.inr (Or.inl ⟨⟨c, m0.start⟩, ?_, hcx, hx1⟩)
        refine List.mem_filter.mpr ⟨?_, ?_⟩
        · exact List.mem_cons_self _ _
        · simp [keepGap, lt_of_le_of_lt hcx hx1, hk]
      · refine Or.inr (Or.inr ⟨c, m0.start, le_refl c, hcx, hx1, ?_, ?_⟩)
        · exact (diffMinutes_lt_iff m0.start c min).mp (lt_of_not_le hk)
        · intro m hm
          rcases List.mem_cons.mp hm with hm | hm
          · exact Or.inr (hm ▸ le_refl _)
          · refine Or.inr (le_of_lt ?_)
            have h2 := hwf m0 (List.mem_cons_self _ _)
            exact lt_of_le_of_lt h2 (chain_sep_head_lt m0 rest hch
              (fun s hs => hwf s (List.mem_cons_of_mem m0 hs)) m hm)
    · by_cases hx2 : x < m0.stop
      · exact Or.inl ⟨m0, List.mem_cons_self _ _, le_of_not_lt hx1, hx2⟩
      · have hx3 : m0.stop ≤ x := le_of_not_lt hx2
        have hrest := ih m0.stop ((List.chain'_cons'.mp hch).2)
          (fun s hs => hwf s (List.mem_cons_of_mem m0 hs))
          (fun m hm => le_trans (le_of_lt (chain_sep_head_lt m0 rest hch
            (fun s hs => hwf s (List.mem_cons_of_mem m0 hs)) m hm))
            (hwf m (List.mem_cons_of_mem m0 hm)))
          x hx3 hxe
        rcases hrest with ⟨m, hm, hcv⟩ | ⟨g, hg, hcv⟩ | ⟨a, b, hca, hax, hxb, hlen, hfree⟩
        · exact Or.inl ⟨m, List.mem_cons_of_mem m0 hm, hcv⟩
        · refine Or.inr (Or.inl ⟨g, ?_, hcv⟩)
          obtain ⟨hgm, hgk⟩ := List.mem_filter.mp hg
          exact List.mem_filter.mpr ⟨List.mem_cons_of_mem _ hgm, hgk⟩
        · refine Or.inr (Or.inr ⟨a, b, ?_, hax, hxb, hlen, ?_⟩)
          · exact le_trans (hcs m0 (List.mem_cons_self _ _)) hca
          · intro m hm
            rcases List.mem_cons.mp hm with hm | hm
            · exact Or.inl (hm ▸ hca)
            · exact hfree m hm

/-! ### Claim theorem about gap computation -/

/-- Claim C4 (amended): for every busy-slot list of nonempty slots that
overlap the window `[f, t)` and every `minSlot ≥ 0`, the gaps returned by
`findGaps` are pairwise disjoint and sorted, lie within the window, are
disjoint from every merged busy slot, and every point of the window is
covered by a merged busy slot, a returned gap, or a free interval shorter
than `minSlot` minutes; every gap is at least `minSlot` minutes long
whenever the merged busy list is nonempty — but when it is empty the whole
window is returned unconditionally, even if shorter than `minSlot`. -/
theorem findGaps_gap_completeness (busy : List TimeSlot) (f t min : Int)
    (hwf : ∀ s ∈ busy, s.start < s.stop)
    (hov : ∀ s ∈ busy, s.start < t ∧ f < s.stop)
    (hft : f ≤ t) (_hmin : 0 ≤ min) :
    List.Pairwise gapLE (findGaps busy f t min) ∧
      (∀ g ∈ findGaps busy f t min, f ≤ g.start ∧ g.stop ≤ t ∧ g.start ≤ g.stop) ∧
      (∀ g ∈ findGaps busy f t min, ∀ m ∈ mergeIntervals busy,
        m.stop ≤ g.start ∨ g.stop ≤ m.start) ∧
      (mergeIntervals busy ≠ [] →
        ∀ g ∈ findGaps busy f t min, min * 60000 ≤ g.stop - g.start) ∧
      (∀ x : Int, f ≤ x → x < t →
        (∃ m ∈ mergeIntervals busy, covers m x) ∨
          (∃ g ∈ findGaps busy f t min, covers g x) ∨
          (∃ a b : Int, a ≤ x ∧ x < b ∧ b - a < min * 60000 ∧
            ∀ m ∈ mergeIntervals busy, m.stop ≤ a ∨ b ≤ m.start)) := by
  by_cases hbe : busy = []
  · subst hbe
    have hm : mergeIntervals ([] : List TimeSlot) = [] := rfl
    have hg : findGaps [] f t min = [⟨f, t⟩] := rfl
    refine ⟨?_, ?_, ?_, ?_, ?_⟩
    · rw [hg]; exact List.pairwise_singleton _ _
    · intro g hgm
      rw [hg] at hgm
      simp only [List.mem_singleton] at hgm
      exact hgm ▸ ⟨le_refl f, le_refl t, hft⟩
    · intro g _ m hm2
      rw [hm] at hm2
      simp at hm2
    · intro hne
      exact absurd hm hne
    · intro x hfx hxt
      refine Or.inr (Or.inl ⟨⟨f, t⟩, ?_, hfx, hxt⟩)
      rw [hg]
      exact List.mem_singleton.mpr rfl
  · have hne : mergeIntervals busy ≠ [] :=
      fun h => hbe ((mergeIntervals_eq_nil_iff busy).mp h)
    obtain ⟨m0, tl, hmg⟩ : ∃ m0 tl, mergeIntervals busy = m0 :: tl := by
      cases h : mergeIntervals busy with
      | nil => exact absurd h hne
      | cons a l => exact ⟨a, l, rfl⟩
    have hch : List.Chain' sepSlots (m0 :: tl) := hmg ▸ mergeIntervals_chain busy
    have hwfm : ∀ m ∈ m0 :: tl, m.start ≤ m.stop := by
      intro m hm
      exact le_of_lt (mergeIntervals_wf_strict busy hwf m (hmg ▸ hm))
    have hanchor : ∀ m ∈ m0 :: tl,
        (∃ s ∈ busy, m.start = s.start) ∧ (∃ s ∈ busy, m.stop = s.stop) := by
      intro m hm
      exact mergeIntervals_anchors busy m (hmg ▸ hm)
    have hbridge := findGaps_eq_filter busy f t min m0 tl hmg
    refine ⟨?_, ?_, ?_, ?_, ?_⟩
    · rw [hbridge]
      exact (candRec_pairwise t (m0 :: tl) f hch hwfm).filter _
    · intro g hgm
      rw [hbridge] at hgm
      obtain ⟨hgc, hgk⟩ := List.mem_filter.mp hgm
      obtain ⟨h1, h2⟩ := candRec_anchors t (m0 :: tl) f g hgc
      simp only [keepGap, Bool.and_eq_true, decide_eq_true_eq] at hgk
      refine ⟨?_, ?_, le_of_lt hgk.1⟩
      · rcases h1 with h1 | ⟨m, hm, h1⟩
        · exact h1 ▸ le_refl f
        · obtain ⟨_, s, hs, h3⟩ := hanchor m hm
          exact h1 ▸ (h3 ▸ le_of_lt (hov s hs).2)
      · rcases h2 with h2 | ⟨m, hm, h2⟩
        · exact h2 ▸ le_refl t
        · obtain ⟨⟨s, hs, h3⟩, _⟩ := hanchor m hm
          exact h2 ▸ (h3 ▸ le_of_lt (hov s hs).1)
    · intro g hgm m hm
      rw [hbridge] at hgm
      exact candRec_free t (m0 :: tl) f hch hwfm g (List.mem_filter.mp hgm).1 m (hmg ▸ hm)
    · intro _ g hgm
      rw [hbridge] at hgm
      have hgk := (List.mem_filter.mp hgm).2
      simp only [keepGap, Bool.and_eq_true, decide_eq_true_eq] at hgk
      exact (le_diffMinutes_iff g.stop g.start min).mp hgk.2
    · intro x hfx hxt
      have hcs : ∀ m ∈ m0 :: tl, f ≤ m.stop := by
        intro m hm
        obtain ⟨_, s, hs, h3⟩ := hanchor m hm
        exact h3 ▸ le_of_lt (hov s hs).2
      have := candRec_coverage t min (m0 :: tl) f hch hwfm hcs x hfx hxt
      rcases this with ⟨m, hm, hcv⟩ | ⟨g, hg, hcv⟩ | ⟨a, b, _, hax, hxb, hlen, hfree⟩
      · exact Or.inl ⟨m, hmg ▸ hm, hcv⟩
      · exact Or.inr (Or.inl ⟨g, hbridge ▸ hg, hcv⟩)
      · exact Or.inr (Or.inr ⟨a, b, hax, hxb, hlen, fun m hm => hfree m (hmg ▸ hm)⟩)

/-- Claim C4, witness: the theorem applied to one busy hour in a two-hour
window with a 30-minute minimum. -/
theorem findGaps_gap_completeness_witness :
    (∀ s ∈ [TimeSlot.mk 0 3600000], s.start < s.stop) ∧
      (∀ s ∈ [TimeSlot.mk 0 3600000], s.start < 7200000 ∧ (0 : Int) < s.stop) ∧
      (0 : Int) ≤ 7200000 ∧ (0 : Int) ≤ 30 ∧
      (List.Pairwise gapLE (findGaps [⟨0, 3600000⟩] 0 7200000 30) ∧
        (∀ g ∈ findGaps [⟨0, 3600000⟩] 0 7200000 30,
          (0 : Int) ≤ g.start ∧ g.stop ≤ 7200000 ∧ g.start ≤ g.stop) ∧
        (∀ g ∈ findGaps [⟨0, 3600000⟩] 0 7200000 30, ∀ m ∈ mergeIntervals [⟨0, 3600000⟩],
          m.stop ≤ g.start ∨ g.stop ≤ m.start) ∧
        (mergeIntervals [⟨0, 3600000⟩] ≠ [] →
          ∀ g ∈ findGaps [⟨0, 3600000⟩] 0 7200000 30, 30 * 60000 ≤ g.stop - g.start) ∧
        (∀ x : Int, 0 ≤ x → x < 7200000 →
          (∃ m ∈ mergeIntervals [⟨0, 3600000⟩], covers m x) ∨
            (∃ g ∈ findGaps [⟨0, 3600000⟩] 0 7200000 30, covers g x) ∨
            (∃ a b : Int, a ≤ x ∧ x < b ∧ b - a < 30 * 60000 ∧
              ∀ m ∈ mergeIntervals [⟨0, 3600000⟩], m.stop ≤ a ∨ b ≤ m.start))) :=
  ⟨by decide, by decide, by decide, by decide,
    findGaps_gap_completeness [⟨0, 3600000⟩] 0 7200000 30
      (by decide) (by decide) (by decide) (by decide)⟩

/-- Claim C4, counterexample to the claim as stated: with no busy slots and
`minSlot = 5` over the one-minute window `[0, 60000)`, `findGaps` returns
the whole window even though its duration (1 minute) is below the minimum —
the empty-busy branch of the source applies no minimum-duration filter.
Moreover, with a busy slot entirely outside the window, a returned gap can
extend past the window end, so `gaps ∪ merge(busy)` can exceed `[f, t)`. -/
theorem findGaps_min_filter_cex :
    findGaps [] 0 60000 5 = [⟨0, 60000⟩] ∧
      (∃ g ∈ findGaps [] 0 60000 5, diffMinutes g.stop g.start < 5) ∧
      (∃ g ∈ findGaps [⟨100, 200⟩] 0 10 0, ¬ g.stop ≤ 10) := by
  refine ⟨rfl, ⟨⟨0, 60000⟩, by decide, by decide⟩, ⟨⟨0, 100⟩, by decide, by decide⟩⟩

/-! ### Lemmas: the forward scan -/

theorem navDone_false_iff (searchEnd : Int) (maxSugg : Nat) (st : AvailState) :
    navDone searchEnd maxSugg st = false ↔
      (st.cursor < searchEnd ∧ st.suggestions.length < maxSugg) := by
  simp [navDone]

theorem navIter_cursor_lt (merged : List TimeSlot) (dur step : Int) (st : AvailState)
    (hstep : 1 ≤ step) : st.cursor < (navIter merged dur step st).cursor := by
  simp only [navIter]
  cases hf : merged.find? (fun m =>
      intervalsOverlap st.cursor (st.cursor + dur * 60000) m.start m.stop) with
  | some m =>
    have hp := List.find?_some hf
    simp only [intervalsOverlap, Bool.and_eq_true, decide_eq_true_eq] at hp
    exact hp.1
  | none =>
    show st.cursor < st.cursor + step * 60000
    have h60 : (1 : Int) * 60000 ≤ step * 60000 :=
      mul_le_mul_of_nonneg_right hstep (by norm_num)
    linarith

theorem navScan_done (merged : List TimeSlot) (searchEnd dur step : Int) (maxSugg : Nat)
    (hstep : 1 ≤ step) :
    ∀ fuel (st : AvailState), (searchEnd - st.cursor).toNat < fuel →
      navDone searchEnd maxSugg
        (navScan merged searchEnd dur step maxSugg fuel st) = true := by
  intro fuel
  induction fuel with
  | zero => intro st h; omega
  | succ n ih =>
    intro st h
    simp only [navScan]
    by_cases hdone : navDone searchEnd maxSugg st = true
    · simp [hdone]
    · simp only [hdone, Bool.false_eq_true, if_false]
      have hfacts := (navDone_false_iff searchEnd maxSugg st).mp
        (eq_false_of_ne_true hdone)
      have hinc := navIter_cursor_lt merged dur step st hstep
      have hcs : st.cursor < searchEnd := hfacts.1
      refine ih (navIter merged dur step st) ?_
      have h2 : searchEnd - (navIter merged dur step st).cursor < searchEnd - st.cursor := by
        omega
      omega

theorem navScan_suggestions_inv (merged : List TimeSlot) (searchEnd dur step : Int)
    (maxSugg : Nat) :
    ∀ fuel (st : AvailState),
      (∀ s ∈ st.suggestions, s.stop - s.start = dur * 60000 ∧
        ∀ m ∈ merged, intervalsOverlap s.start s.stop m.start m.stop = false) →
      st.suggestions.length ≤ maxSugg →
      (∀ s ∈ (navScan merged searchEnd dur step maxSugg fuel st).suggestions,
        s.stop - s.start = dur * 60000 ∧
          ∀ m ∈ merged, intervalsOverlap s.start s.stop m.start m.stop = false) ∧
        (navScan merged searchEnd dur step maxSugg fuel st).suggestions.length ≤ maxSugg := by
  intro fuel
  induction fuel with
  | zero => intro st hinv hlen; exact ⟨hinv, hlen⟩
  | succ n ih =>
    intro st hinv hlen
    simp only [navScan]
    by_cases hdone : navDone searchEnd maxSugg st = true
    · simp only [hdone, if_true]
      exact ⟨hinv, hlen⟩
    · simp only [hdone, Bool.false_eq_true, if_false]
      have hfacts := (navDone_false_iff searchEnd maxSugg st).mp
        (eq_false_of_ne_true hdone)
      refine ih (navIter merged dur step st) ?_ ?_
      · intro s hs
        simp only [navIter] at hs
        cases hf : merged.find? (fun m =>
            intervalsOverlap st.cursor (st.cursor + dur * 60000) m.start m.stop) with
        | some m =>
          rw [hf] at hs
          exact hinv s hs
        | none =>
          rw [hf] at hs
          simp only [List.mem_append, List.mem_singleton] at hs
          rcases hs with hs | hs
          · exact hinv s hs
          · subst hs
            refine ⟨by ring_nf, ?_⟩
            intro m hm
            have := List.find?_eq_none.mp hf m hm
            simpa using this
      · simp only [navIter]
        cases hf : merged.find? (fun m =>
            intervalsOverlap st.cursor (st.cursor + dur * 60000) m.start m.stop) with
        | some m => exact hlen
        | none =>
          show (st.suggestions ++ [_]).length ≤ maxSugg
          simp only [List.length_append, List.length_singleton]
          omega

/-! ### Claim theorem about loop termination -/

/-- Claim C10: for any merged busy list and any `stepMinutes ≥ 1`, each
iteration of `computeNextAvailable`'s forward scan strictly increases the
cursor (jumping past an obstructing busy slot or advancing by the step), so
the scan run by `computeNextAvailable` with fuel `searchEnd - cursor + 1`
reaches its stopping condition (`searchEnd` reached or `maxSuggestions`
collected). -/
theorem navScan_cursor_increases_and_terminates (merged : List TimeSlot)
    (searchEnd dur step : Int) (maxSugg : Nat) (hstep : 1 ≤ step) :
    (∀ st : AvailState, st.cursor < (navIter merged dur step st).cursor) ∧
      (∀ st : AvailState,
        navDone searchEnd maxSugg
          (navScan merged searchEnd dur step maxSugg
            ((searchEnd - st.cursor).toNat + 1) st) = true) := by
  constructor
  · intro st
    exact navIter_cursor_lt merged dur step st hstep
  · intro st
    exact navScan_done merged searchEnd dur step maxSugg hstep _ st (by omega)

/-- Claim C10, witness: the theorem applied to an empty busy list, a
two-millisecond horizon and unit step, starting at cursor 0. -/
theorem navScan_cursor_increases_and_terminates_witness :
    (1 : Int) ≤ 1 ∧
      (AvailState.mk 0 []).cursor < (navIter [] 1 1 ⟨0, []⟩).cursor ∧
      navDone 2 1 (navScan [] 2 1 1 1 ((2 - (AvailState.mk 0 []).cursor).toNat + 1)
        ⟨0, []⟩) = true :=
  ⟨by decide,
    (navScan_cursor_increases_and_terminates [] 2 1 1 1 (by decide)).1 ⟨0, []⟩,
    (navScan_cursor_increases_and_terminates [] 2 1 1 1 (by decide)).2 ⟨0, []⟩⟩

theorem navScan_first_min (merged : List TimeSlot) (searchEnd dur step : Int)
    (maxSugg : Nat) (desired : Int) :
    ∀ fuel (st : AvailState),
      (st.suggestions = [] →
        (desired ≤ st.cursor ∧ ∀ t : Int, desired ≤ t → t < st.cursor →
          ∃ m ∈ merged, intervalsOverlap t (t + dur * 60000) m.start m.stop = true)) →
      (∀ first rest2, st.suggestions = first :: rest2 →
        desired ≤ first.start ∧
          (∀ m ∈ merged,
            intervalsOverlap first.start (first.start + dur * 60000) m.start m.stop = false) ∧
          ∀ t : Int, desired ≤ t → t < first.start →
            ∃ m ∈ merged, intervalsOverlap t (t + dur * 60000) m.start m.stop = true) →
      ∀ first rest2,
        (navScan merged searchEnd dur step maxSugg fuel st).suggestions = first :: rest2 →
        desired ≤ first.start ∧
          (∀ m ∈ merged,
            intervalsOverlap first.start (first.start + dur * 60000) m.start m.stop = false) ∧
          ∀ t : Int, desired ≤ t → t < first.start →
            ∃ m ∈ merged, intervalsOverlap t (t + dur * 60000) m.start m.stop = true := by
  intro fuel
  induction fuel with
  | zero => intro st _ hq2 first rest2 heq; exact hq2 first rest2 heq
  | succ n ih =>
    intro st hq1 hq2
    simp only [navScan]
    by_cases hdone : navDone searchEnd maxSugg st = true
    · simp only [hdone, if_true]
      exact hq2
    · simp only [hdone, Bool.false_eq_true, if_false]
      refine ih (navIter merged dur step st) ?_ ?_
      · -- the tail invariant for the empty-suggestions state
        intro hnil
        simp only [navIter] at hnil ⊢
        cases hf : merged.find? (fun m =>
            intervalsOverlap st.cursor (st.cursor + dur * 60000) m.start m.stop) with
        | some m =>
          rw [hf] at hnil
          have hnil' : st.suggestions = [] := hnil
          obtain ⟨hdc, hpre⟩ := hq1 hnil'
          have hp := List.find?_some hf
          have hmm := List.mem_of_find?_eq_some hf
          simp only [intervalsOverlap, Bool.and_eq_true, decide_eq_true_eq] at hp
          refine ⟨?_, ?_⟩
          · show desired ≤ m.stop
            exact le_trans hdc (le_of_lt hp.1)
          · intro t hdt htc
            have htc' : t < m.stop := htc
            by_cases htcur : t < st.cursor
            · exact hpre t hdt htcur
            · refine ⟨m, hmm, ?_⟩
              simp only [intervalsOverlap, Bool.and_eq_true, decide_eq_true_eq]
              have h1 := le_of_not_lt htcur
              exact ⟨htc', by omega⟩
        | none =>
          rw [hf] at hnil
          have hnil' : st.suggestions ++ [(⟨st.cursor, st.cursor + dur * 60000⟩ : TimeSlot)]
              = [] := hnil
          exact absurd hnil' (by simp)
      · -- the head invariant for the nonempty-suggestions state
        intro first rest2 heq
        simp only [navIter] at heq
        cases hf : merged.find? (fun m =>
            intervalsOverlap st.cursor (st.cursor + dur * 60000) m.start m.stop) with
        | some m =>
          rw [hf] at heq
          have heq' : st.suggestions = first :: rest2 := heq
          exact hq2 first rest2 heq'
        | none =>
          rw [hf] at heq
          have heq' : st.suggestions ++ [(⟨st.cursor, st.cursor + dur * 60000⟩ : TimeSlot)]
              = first :: rest2 := heq
          cases hsugg : st.suggestions with
          | nil =>
            obtain ⟨hdc, hpre⟩ := hq1 hsugg
            rw [hsugg, List.nil_append] at heq'
            injection heq' with h1 h2
            subst h1
            refine ⟨hdc, ?_, hpre⟩
            intro m hm
            have := List.find?_eq_none.mp hf m hm
            simpa using this
          | cons first0 rest0 =>
            obtain ⟨ha, hb, hc⟩ := hq2 first0 rest0 hsugg
            rw [hsugg, List.cons_append] at heq'
            injection heq' with h1 h2
            subst h1
            exact ⟨ha, hb, hc⟩

/-! ### Lemmas: overlap against merged versus original busy slots -/

theorem overlap_orig_merged (busy : List TimeSlot) (c1 c2 : Int) (s : TimeSlot)
    (hs : s ∈ busy) (hov : intervalsOverlap c1 c2 s.start s.stop = true) :
    ∃ m ∈ mergeIntervals busy, intervalsOverlap c1 c2 m.start m.stop = true := by
  obtain ⟨m, hm, h1, h2⟩ := mergeIntervals_contains busy s hs
  simp only [intervalsOverlap, Bool.and_eq_true, decide_eq_true_eq] at hov ⊢
  exact ⟨m, hm, lt_of_lt_of_le hov.1 h2, lt_of_le_of_lt h1 hov.2⟩

theorem overlap_merged_orig (busy : List TimeSlot) (c1 c2 : Int)
    (hwf : ∀ s ∈ busy, s.start < s.stop) (hc : c1 < c2) (m : TimeSlot)
    (hm : m ∈ mergeIntervals busy) (hov : intervalsOverlap c1 c2 m.start m.stop = true) :
    ∃ s ∈ busy, intervalsOverlap c1 c2 s.start s.stop = true := by
  simp only [intervalsOverlap, Bool.and_eq_true, decide_eq_true_eq] at hov
  have hmwf : m.start < m.stop := mergeIntervals_wf_strict busy hwf m hm
  have hcov : covers m (max c1 m.start) :=
    ⟨le_max_right _ _, max_lt hov.1 hmwf⟩
  obtain ⟨s, hsb, hcs⟩ := mergeIntervals_covers_orig busy m hm (max c1 m.start) hcov
  simp only [intervalsOverlap, Bool.and_eq_true, decide_eq_true_eq]
  refine ⟨s, hsb, lt_of_le_of_lt (le_max_left _ _) hcs.2, ?_⟩
  exact lt_of_le_of_lt hcs.1 (max_lt hc hov.2)

/-! ### Lemmas: well-formedness of resolver output -/

theorem storeWF_spec (store : Store) (hwf : storeWF store = true) :
    ∀ b ∈ store, b.startTime < b.endTime ∧ ∀ ex ∈ b.exceptions, excWF ex = true := by
  intro b hb
  simp only [storeWF, List.all_eq_true] at hwf
  have := hwf b hb
  simp only [Bool.and_eq_true, decide_eq_true_eq, List.all_eq_true] at this
  exact this

theorem expandOccurrences_wf (rule : RRuleData) (windowStart windowEnd baseStart baseEnd : Int)
    (exs : List BookingException) (hbe : baseStart < baseEnd)
    (hexw : ∀ ex ∈ exs, excWF ex = true) :
    ∀ o ∈ expandOccurrences rule windowStart windowEnd baseStart baseEnd exs,
      o.start < o.stop := by
  intro o ho
  rw [expandOccurrences_eq_filterMap] at ho
  obtain ⟨oc, _, hemit⟩ := List.mem_filterMap.mp ho
  simp only [emitFor] at hemit
  cases hl : lookupExc exs (dateKey oc) with
  | none =>
    rw [hl] at hemit
    simp only [Option.some_inj] at hemit
    subst hemit
    simp only
    omega
  | some exc =>
    rw [hl] at hemit
    have hemit' : (match exc.replaceStart, exc.replaceEnd with
        | some rs, some re => some (⟨rs, re⟩ : TimeSlot)
        | _, _ => none) = some o := hemit
    have hmem := lookupExc_mem (dateKey oc) exs exc hl
    have hexc := hexw exc hmem
    cases hrs : exc.replaceStart with
    | none => rw [hrs] at hemit'; simp at hemit'
    | some rs =>
      cases hre : exc.replaceEnd with
      | none => rw [hrs, hre] at hemit'; simp at hemit'
      | some re =>
        rw [hrs, hre] at hemit'
        simp only [Option.some_inj] at hemit'
        subst hemit'
        simp only [excWF, hrs, hre, decide_eq_true_eq] at hexc
        exact hexc

theorem findOverlaps_wf (store : Store) (resourceId : Nat) (windowStart windowEnd : Int)
    (hwf : storeWF store = true) :
    ∀ i ∈ findOverlaps store resourceId windowStart windowEnd, i.start < i.stop := by
  intro i hi
  simp only [findOverlaps] at hi
  rw [(List.perm_insertionSort instLE _).mem_iff] at hi
  rcases List.mem_append.mp hi with hi | hi
  · obtain ⟨b, hb, hbi⟩ := List.mem_map.mp hi
    have hbs := (storeWF_spec store hwf b (List.mem_filter.mp hb).1).1
    subst hbi
    exact hbs
  · obtain ⟨b, hb, hbi⟩ := List.mem_flatMap.mp hi
    have hbw := storeWF_spec store hwf b (List.mem_filter.mp hb).1
    cases hr : b.recurrenceRule with
    | none => rw [hr] at hbi; simp at hbi
    | some rule =>
      rw [hr] at hbi
      obtain ⟨o, ho, hoi⟩ := List.mem_map.mp hbi
      have how := expandOccurrences_wf rule (windowStart - (b.endTime - b.startTime))
        windowEnd b.startTime b.endTime b.exceptions hbw.1 hbw.2 o
        (List.mem_filter.mp ho).1
      subst hoi
      exact how

/-! ### Claim theorem about next-available suggestions -/

/-- Claim C7 (amended): for every well-formed store, desired start,
duration of at least one minute, horizon, step ≥ 1 and suggestion cap,
every suggested slot has the requested duration and is disjoint from every
busy instance the resolver returns over the searched window, and the first
suggestion is the earliest non-conflicting slot of that duration starting
at or after the desired start: every earlier start conflicts with some busy
instance. -/
theorem computeNextAvailable_fresh_and_earliest (store : Store) (resourceId : Nat)
    (desiredStart durationMinutes horizonHours stepMinutes : Int) (maxSuggestions : Nat)
    (hwf : storeWF store = true) (_hstep : 1 ≤ stepMinutes) (hdur : 1 ≤ durationMinutes) :
    (∀ slot ∈ (computeNextAvailable store resourceId desiredStart durationMinutes
        horizonHours stepMinutes maxSuggestions).suggestions,
      slot.stop - slot.start = durationMinutes * 60000 ∧
        ∀ i ∈ findOverlaps store resourceId desiredStart
            (desiredStart + horizonHours * 3600000),
          intervalsOverlap slot.start slot.stop i.start i.stop = false) ∧
      (∀ first rest2,
        (computeNextAvailable store resourceId desiredStart durationMinutes
            horizonHours stepMinutes maxSuggestions).suggestions = first :: rest2 →
        desiredStart ≤ first.start ∧
          ∀ t : Int, desiredStart ≤ t → t < first.start →
            ∃ i ∈ findOverlaps store resourceId desiredStart
                (desiredStart + horizonHours * 3600000),
              intervalsOverlap t (t + durationMinutes * 60000) i.start i.stop = true) := by
  have hres : (computeNextAvailable store resourceId desiredStart durationMinutes
      horizonHours stepMinutes maxSuggestions).suggestions
      = (navScan (mergeIntervals ((findOverlaps store resourceId desiredStart
          (desiredStart + horizonHours * 3600000)).map (fun i => TimeSlot.mk i.start i.stop)))
        (desiredStart + horizonHours * 3600000) durationMinutes stepMinutes maxSuggestions
        (((desiredStart + horizonHours * 3600000) - desiredStart).toNat + 1)
        ⟨desiredStart, []⟩).suggestions := rfl
  have hwfI := findOverlaps_wf store resourceId desiredStart
    (desiredStart + horizonHours * 3600000) hwf
  have hwfS : ∀ s ∈ (findOverlaps store resourceId desiredStart
      (desiredStart + horizonHours * 3600000)).map (fun i => TimeSlot.mk i.start i.stop),
      s.start < s.stop := by
    intro s hs
    obtain ⟨i, hi, hsi⟩ := List.mem_map.mp hs
    subst hsi
    exact hwfI i hi
  have hinv := navScan_suggestions_inv
    (mergeIntervals ((findOverlaps store resourceId desiredStart
      (desiredStart + horizonHours * 3600000)).map (fun i => TimeSlot.mk i.start i.stop)))
    (desiredStart + horizonHours * 3600000) durationMinutes stepMinutes maxSuggestions
    (((desiredStart + horizonHours * 3600000) - desiredStart).toNat + 1)
    ⟨desiredStart, []⟩ (by intro s hs; simp at hs) (Nat.zero_le _)
  constructor
  · intro slot hslot
    rw [hres] at hslot
    obtain ⟨hd, hno⟩ := hinv.1 slot hslot
    refine ⟨hd, ?_⟩
    intro i hi
    by_contra hcon
    have hov : intervalsOverlap slot.start slot.stop i.start i.stop = true := by
      cases h : intervalsOverlap slot.start slot.stop i.start i.stop with
      | true => rfl
      | false => exact absurd h hcon
    obtain ⟨m, hm, hovm⟩ := overlap_orig_merged _ slot.start slot.stop
      (TimeSlot.mk i.start i.stop)
      (List.mem_map_of_mem (fun j => TimeSlot.mk j.start j.stop) hi) hov
    have := hno m hm
    rw [this] at hovm
    exact absurd hovm (by simp)
  · intro first rest2 heq
    rw [hres] at heq
    have hfm := navScan_first_min
      (mergeIntervals ((findOverlaps store resourceId desiredStart
        (desiredStart + horizonHours * 3600000)).map (fun i => TimeSlot.mk i.start i.stop)))
      (desiredStart + horizonHours * 3600000) durationMinutes stepMinutes maxSuggestions
      desiredStart
      (((desiredStart + horizonHours * 3600000) - desiredStart).toNat + 1)
      ⟨desiredStart, []⟩
      (by
        intro _
        refine ⟨le_refl _, ?_⟩
        intro t h1 h2
        exact absurd (lt_of_le_of_lt h1 h2) (lt_irrefl _))
      (by
        intro f r h
        exact absurd h (by simp))
      first rest2 heq
    obtain ⟨ha, _, hc⟩ := hfm
    refine ⟨ha, ?_⟩
    intro t h1 h2
    obtain ⟨m, hm, hovm⟩ := hc t h1 h2
    have hct : t < t + durationMinutes * 60000 := by
      have h60 : (1 : Int) * 60000 ≤ durationMinutes * 60000 :=
        mul_le_mul_of_nonneg_right hdur (by norm_num)
      linarith
    obtain ⟨s, hsb, hovs⟩ := overlap_merged_orig _ t (t + durationMinutes * 60000)
      hwfS hct m hm hovm
    obtain ⟨i, hi, hsi⟩ := List.mem_map.mp hsb
    subst hsi
    exact ⟨i, hi, hovs⟩

/-- Claim C7, witness: the theorem applied to the store holding the single
booking `[0, 120000)`, desired start 0, one-minute duration, one-hour
horizon, 15-minute step, two suggestions. -/
theorem computeNextAvailable_fresh_and_earliest_witness :
    storeWF storeA = true ∧ (1 : Int) ≤ 15 ∧ (1 : Int) ≤ 1 ∧
      ((∀ slot ∈ (computeNextAvailable storeA 1 0 1 1 15 2).suggestions,
        slot.stop - slot.start = 1 * 60000 ∧
          ∀ i ∈ findOverlaps storeA 1 0 (0 + 1 * 3600000),
            intervalsOverlap slot.start slot.stop i.start i.stop = false) ∧
        (∀ first rest2,
          (computeNextAvailable storeA 1 0 1 1 15 2).suggestions = first :: rest2 →
          (0 : Int) ≤ first.start ∧
            ∀ t : Int, 0 ≤ t → t < first.start →
              ∃ i ∈ findOverlaps storeA 1 0 (0 + 1 * 3600000),
                intervalsOverlap t (t + 1 * 60000) i.start i.stop = true)) :=
  ⟨by decide, by decide, by decide,
    computeNextAvailable_fresh_and_earliest storeA 1 0 1 1 15 2
      (by decide) (by decide) (by decide)⟩

/-- Claim C7, counterexample to the claim as stated (which quantifies over
every duration, including zero): with busy `[0, 5)` and `[5, 10)`, desired
start 1 and duration 0, the scan's merge step fuses the two busy slots into
`[0, 10)`, the zero-length candidate `[1, 1)` is treated as conflicting, and
the first suggestion starts at 10 — yet the zero-length slot at 5 conflicts
with no busy instance and starts earlier, so the first suggestion is not the
earliest non-conflicting slot. -/
theorem computeNextAvailable_zero_duration_cex :
    (computeNextAvailable storeB 1 1 0 1 1 1).suggestions = [⟨10, 10⟩] ∧
      (∀ i ∈ findOverlaps storeB 1 1 3600001,
        intervalsOverlap 5 (5 + 0 * 60000) i.start i.stop = false) ∧
      (1 : Int) ≤ 5 ∧ (5 : Int) < 10 := by
  refine ⟨by decide, by decide, by decide, by decide⟩

/-! ### Lemmas: single-booking creation -/

theorem hasConflict_true_iff (store : Store) (resourceId : Nat) (s e : Int) :
    (hasConflict store resourceId s e).hasConflict = true ↔
      ∃ i ∈ findOverlaps store resourceId s e,
        intervalsOverlap s e i.start i.stop = true := by
  simp only [hasConflict, decide_eq_true_eq]
  rw [gt_iff_lt, List.length_pos, Ne, List.filter_eq_nil_iff]
  push_neg
  constructor
  · rintro ⟨i, hm, hp⟩
    exact ⟨i, hm, hp⟩
  · rintro ⟨i, hm, hp⟩
    exact ⟨i, hm, hp⟩

theorem createSingleBooking_eq_conflict (store : Store) (resourceId newId : Nat)
    (s e : Int) (h : (hasConflict store resourceId s e).hasConflict = true) :
    createSingleBooking store resourceId s e newId
      = (⟨BStatus.conflict, none, (hasConflict store resourceId s e).conflicts,
          (computeNextAvailable store resourceId s (diffMinutes e s) 720 15 5).suggestions⟩,
        store) := by
  simp only [createSingleBooking, h, if_true]

theorem createSingleBooking_eq_success (store : Store) (resourceId newId : Nat)
    (s e : Int) (h : (hasConflict store resourceId s e).hasConflict = false) :
    createSingleBooking store resourceId s e newId
      = (⟨BStatus.success, some ⟨newId, resourceId, s, e, none, []⟩, [], []⟩,
        store ++ [⟨newId, resourceId, s, e, none, []⟩]) := by
  simp only [createSingleBooking, h, Bool.false_eq_true, if_false]

/-! ### Claim theorem about single-booking creation -/

/-- Claim C1 (amended): when the busy set overlaps the candidate `[s, e)`,
`createSingleBooking` persists nothing and returns a conflict value (not an
exception) carrying exactly the conflicting busy instances and up to 5
next-available slots whose duration is the candidate's duration rounded
down to whole minutes (`diffMinutes e s` minutes — equal to the requested
duration only when `e - s` is a whole number of minutes); when nothing
overlaps, it persists the booking and returns it with status success. -/
theorem createSingleBooking_conflict_or_persist (store : Store) (resourceId newId : Nat)
    (startTime endTime : Int) (_hse : startTime < endTime) :
    ((∃ i ∈ findOverlaps store resourceId startTime endTime,
        intervalsOverlap startTime endTime i.start i.stop = true) →
      (createSingleBooking store resourceId startTime endTime newId).2 = store ∧
        (createSingleBooking store resourceId startTime endTime newId).1.status
          = BStatus.conflict ∧
        (createSingleBooking store resourceId startTime endTime newId).1.booking = none ∧
        (createSingleBooking store resourceId startTime endTime newId).1.conflicts
          = (findOverlaps store resourceId startTime endTime).filter (fun i =>
              intervalsOverlap startTime endTime i.start i.stop) ∧
        (createSingleBooking store resourceId startTime endTime newId).1.conflicts ≠ [] ∧
        (createSingleBooking store resourceId startTime endTime newId).1.next_available.length
          ≤ 5 ∧
        ∀ slot ∈ (createSingleBooking store resourceId startTime endTime
            newId).1.next_available,
          slot.stop - slot.start = diffMinutes endTime startTime * 60000) ∧
      ((¬ ∃ i ∈ findOverlaps store resourceId startTime endTime,
          intervalsOverlap startTime endTime i.start i.stop = true) →
        (createSingleBooking store resourceId startTime endTime newId).1.status
          = BStatus.success ∧
          (createSingleBooking store resourceId startTime endTime newId).2
            = store ++ [⟨newId, resourceId, startTime, endTime, none, []⟩] ∧
          (createSingleBooking store resourceId startTime endTime newId).1.booking
            = some ⟨newId, resourceId, startTime, endTime, none, []⟩ ∧
          (createSingleBooking store resourceId startTime endTime newId).1.conflicts = []) := by
  constructor
  · intro hex
    have hb : (hasConflict store resourceId startTime endTime).hasConflict = true :=
      (hasConflict_true_iff store resourceId startTime endTime).mpr hex
    have hred := createSingleBooking_eq_conflict store resourceId newId startTime endTime hb
    rw [hred]
    refine ⟨rfl, rfl, rfl, rfl, ?_, ?_, ?_⟩
    · show (hasConflict store resourceId startTime endTime).conflicts ≠ []
      intro hnil
      obtain ⟨i, hm, hp⟩ := hex
      have : i ∈ (hasConflict store resourceId startTime endTime).conflicts :=
        List.mem_filter.mpr ⟨hm, hp⟩
      rw [hnil] at this
      exact absurd this (by simp)
    · show (computeNextAvailable store resourceId startTime
          (diffMinutes endTime startTime) 720 15 5).suggestions.length ≤ 5
      exact (navScan_suggestions_inv _ _ _ _ 5 _ ⟨startTime, []⟩
        (by intro x hx; simp at hx) (Nat.zero_le _)).2
    · intro slot hslot
      exact ((navScan_suggestions_inv _ _ _ _ 5 _ ⟨startTime, []⟩
        (by intro x hx; simp at hx) (Nat.zero_le _)).1 slot hslot).1
  · intro hnex
    have hb : (hasConflict store resourceId startTime endTime).hasConflict = false := by
      cases h : (hasConflict store resourceId startTime endTime).hasConflict with
      | false => rfl
      | true =>
        exact absurd ((hasConflict_true_iff store resourceId startTime endTime).mp h) hnex
    have hred := createSingleBooking_eq_success store resourceId newId startTime endTime hb
    rw [hred]
    exact ⟨rfl, rfl, rfl, rfl⟩

/-- Claim C1, witness: the theorem applied to the store holding
`[0, 120000)`, with the conflicting request `[0, 90000)`. -/
theorem createSingleBooking_conflict_or_persist_witness :
    (0 : Int) < 90000 ∧
      (∃ i ∈ findOverlaps storeA 1 0 90000,
        intervalsOverlap 0 90000 i.start i.stop = true) ∧
      ((createSingleBooking storeA 1 0 90000 2).2 = storeA ∧
        (createSingleBooking storeA 1 0 90000 2).1.status = BStatus.conflict ∧
        (createSingleBooking storeA 1 0 90000 2).1.booking = none ∧
        (createSingleBooking storeA 1 0 90000 2).1.conflicts
          = (findOverlaps storeA 1 0 90000).filter (fun i =>
              intervalsOverlap 0 90000 i.start i.stop) ∧
        (createSingleBooking storeA 1 0 90000 2).1.conflicts ≠ [] ∧
        (createSingleBooking storeA 1 0 90000 2).1.next_available.length ≤ 5 ∧
        ∀ slot ∈ (createSingleBooking storeA 1 0 90000 2).1.next_available,
          slot.stop - slot.start = diffMinutes 90000 0 * 60000) :=
  ⟨by decide, ⟨⟨1, 0, 120000, false⟩, by decide, by decide⟩,
    (createSingleBooking_conflict_or_persist storeA 1 2 0 90000 (by decide)).1
      ⟨⟨1, 0, 120000, false⟩, by decide, by decide⟩⟩

/-- Claim C1, counterexample to the claim as stated: for the 90-second
request `[0, 90000)` against the busy `[0, 120000)`, the returned
next-available slots last `floor(90000 / 60000) = 1` minute, not the
candidate's 90 seconds — "slots of the same duration" fails for requests
that are not a whole number of minutes. -/
theorem createSingleBooking_duration_rounding_cex :
    (createSingleBooking storeA 1 0 90000 2).1.status = BStatus.conflict ∧
      (createSingleBooking storeA 1 0 90000 2).2 = storeA ∧
      (∃ slot ∈ (createSingleBooking storeA 1 0 90000 2).1.next_available,
        ¬ slot.stop - slot.start = 90000 - 0) :=
  ⟨by decide, rfl, ⟨⟨120000, 180000⟩, by decide, by decide⟩⟩

/-! ### Lemmas: the busy-set resolver -/

theorem rangesIntersect_eq_overlap (s1 e1 s2 e2 : Int) (h1 : s1 < e1) (h2 : s2 < e2) :
    rangesIntersect s1 e1 s2 e2 = (decide (s1 < e2) && decide (s2 < e1)) := by
  have hiff : (max s1 s2 < min e1 e2) ↔ (s1 < e2 ∧ s2 < e1) := by
    rw [max_lt_iff]
    constructor
    · rintro ⟨hA, hB⟩
      rw [lt_min_iff] at hA hB
      exact ⟨hA.2, hB.1⟩
    · rintro ⟨hA, hB⟩
      rw [lt_min_iff, lt_min_iff]
      exact ⟨⟨h1, hA⟩, hB, h2⟩
  have hd : decide (max s1 s2 < min e1 e2) = decide (s1 < e2 ∧ s2 < e1) :=
    decide_eq_decide.mpr hiff
  rw [rangesIntersect, hd]
  by_cases hA : s1 < e2 <;> by_cases hB : s2 < e1 <;> simp [hA, hB]

theorem singles_filter_eq (store : Store) (resourceId : Nat) (ws we : Int)
    (hwf : storeWF store = true) (hw : ws < we) :
    store.filter (fun b =>
        decide (b.resourceId = resourceId) && b.recurrenceRule.isNone &&
        rangesIntersect b.startTime b.endTime ws we)
      = store.filter (fun b =>
        decide (b.resourceId = resourceId) && b.recurrenceRule.isNone &&
        decide (b.startTime < we) && decide (ws < b.endTime)) := by
  apply List.filter_congr
  intro b hb
  have hbw := (storeWF_spec store hwf b hb).1
  rw [rangesIntersect_eq_overlap b.startTime b.endTime ws we hbw hw]
  simp [Bool.and_assoc]

theorem recurring_flatMap_eq (store : Store) (resourceId : Nat) (ws we : Int) :
    (store.filter (fun b =>
        decide (b.resourceId = resourceId) && b.recurrenceRule.isSome &&
        decide (b.startTime < we))).flatMap (fun b =>
      match b.recurrenceRule with
      | none => []
      | some rule =>
        ((expandOccurrences rule (ws - (b.endTime - b.startTime)) we b.startTime b.endTime
            b.exceptions).filter (fun o =>
          decide (o.start < we) && decide (o.stop > ws))).map (fun o =>
          { bookingId := b.id, start := o.start, stop := o.stop, isRecurring := true }))
      = specRecurringInstances store resourceId ws we := by
  induction store with
  | nil => rfl
  | cons b rest ih =>
    simp only [specRecurringInstances, List.flatMap_cons] at ih ⊢
    rw [List.filter_cons]
    by_cases h1 : (decide (b.resourceId = resourceId) && b.recurrenceRule.isSome &&
        decide (b.startTime < we)) = true
    · rw [if_pos h1, List.flatMap_cons, ih]
      have hcond : b.resourceId = resourceId ∧ b.recurrenceRule.isSome ∧ b.startTime < we := by
        simp only [Bool.and_eq_true, decide_eq_true_eq] at h1
        exact ⟨h1.1.1, h1.1.2, h1.2⟩
      rw [if_pos hcond]
    · rw [if_neg h1, ih]
      have hcond : ¬ (b.resourceId = resourceId ∧ b.recurrenceRule.isSome ∧
          b.startTime < we) := by
        intro ⟨ha, hb2, hc2⟩
        exact h1 (by simp [ha, hb2, hc2])
      rw [if_neg hcond, List.nil_append]

/-! ### Claim theorem about the busy-set resolver -/

/-- Claim C2 (amended): for every well-formed store and nonempty query
window, `findOverlaps` returns, sorted by start, exactly the union of the
single-booking intervals overlapping the window and — for each recurring
booking whose template start precedes `windowEnd` — the exception-applied
occurrences that C2 produces over the duration-widened window
`[windowStart - D, windowEnd]` and that overlap the window. A replacement
exception that moves an occurrence into the window from a rule instant
outside the widened window is missed (see the counterexample). -/
theorem findOverlaps_union_sorted (store : Store) (resourceId : Nat) (ws we : Int)
    (hwf : storeWF store = true) (hw : ws < we) :
    List.Perm (findOverlaps store resourceId ws we)
      (specSingleInstances store resourceId ws we
        ++ specRecurringInstances store resourceId ws we) ∧
      List.Pairwise instLE (findOverlaps store resourceId ws we) := by
  have hfo : findOverlaps store resourceId ws we
      = List.insertionSort instLE
        ((store.filter (fun b =>
            decide (b.resourceId = resourceId) && b.recurrenceRule.isNone &&
            rangesIntersect b.startTime b.endTime ws we)).map (fun b =>
          { bookingId := b.id, start := b.startTime, stop := b.endTime, isRecurring := false })
        ++ (store.filter (fun b =>
            decide (b.resourceId = resourceId) && b.recurrenceRule.isSome &&
            decide (b.startTime < we))).flatMap (fun b =>
          match b.recurrenceRule with
          | none => []
          | some rule =>
            ((expandOccurrences rule (ws - (b.endTime - b.startTime)) we b.startTime
                b.endTime b.exceptions).filter (fun o =>
              decide (o.start < we) && decide (o.stop > ws))).map (fun o =>
              { bookingId := b.id, start := o.start, stop := o.stop,
                isRecurring := true }))) := rfl
  constructor
  · rw [hfo, singles_filter_eq store resourceId ws we hwf hw,
      recurring_flatMap_eq store resourceId ws we]
    exact List.perm_insertionSort instLE _
  · rw [hfo]
    exact List.sorted_insertionSort instLE _

/-- Claim C2, witness: the theorem applied to the store holding the single
booking `[0, 120000)` and the window `[0, 50)`. -/
theorem findOverlaps_union_sorted_witness :
    storeWF storeA = true ∧ (0 : Int) < 50 ∧
      (List.Perm (findOverlaps storeA 1 0 50)
          (specSingleInstances storeA 1 0 50 ++ specRecurringInstances storeA 1 0 50) ∧
        List.Pairwise instLE (findOverlaps storeA 1 0 50)) :=
  ⟨by decide, by decide, findOverlaps_union_sorted storeA 1 0 50 (by decide) (by decide)⟩

/-- Claim C2, counterexample to the claim as stated: in `storeC` the single
day-0 occurrence is replaced by an interval on day 30; for the query window
covering day 30 the widened expansion window `[day30 - 1h, day31]` misses
the day-0 rule instant, so `findOverlaps` returns nothing although the
exception-applied busy set of the resource contains the replacement
interval overlapping the window — the returned sequence is not the union of
all exception-applied occurrences overlapping the query window. -/
theorem findOverlaps_missed_replacement_cex :
    findOverlaps storeC 1 2592000000 2678400000 = [] ∧
      specBusySetFull storeC 1 2592000000 2678400000
        = [⟨1, 2642400000, 2646000000, true⟩] :=
  ⟨by decide, by decide⟩
